import Mathlib

/-!
Verification development for the `olx-monitor` repository.

The Python sources (`olx_monitor.py`, `email_report.py`) are shallowly
embedded below.  Pure text-processing functions are translated to Lean
functions on `String` / `List Char`; the stateful persistence functions
(`update_price_history`, `save_profiles_state`, `get_weekly_data`) are
translated to pure functions that take the previously persisted state as an
explicit argument and return the newly written state.  Python `dict`s are
modelled by insertion-ordered association lists, Python `set`s of strings by
`Finset String`, and the ambient clock (`datetime.now()`, `today_label()`) by
explicit string / numeric parameters.
-/

set_option maxHeartbeats 1000000

namespace OlxMonitor

/-! ## Python dict primitives

Python dicts preserve insertion order; assignment to an existing key keeps
its position, assignment to a fresh key appends.  Lookup returns the value of
the (unique, but we stay general) first matching key. -/

/-- Lookup in an insertion-ordered dict: value of the first matching key. -/
def pyLookup {α : Type} (m : List (String × α)) (k : String) : Option α :=
  match m with
  | [] => none
  | (k', v) :: t => if k' = k then some v else pyLookup t k

/-- Python dict assignment `m[k] = v`: replace in place, or append if fresh. -/
def dictInsert {α : Type} (k : String) (v : α) : List (String × α) → List (String × α)
  | [] => [(k, v)]
  | (k', v') :: t => if k' = k then (k, v) :: t else (k', v') :: dictInsert k v t

/-- In-place mutation of the value stored at the first occurrence of `k`. -/
def modifyFirst {α : Type} (k : String) (f : α → α) : List (String × α) → List (String × α)
  | [] => []
  | (k', v) :: t => if k' = k then (k', f v) :: t else (k', v) :: modifyFirst k f t

@[simp] theorem pyLookup_nil {α : Type} (k : String) : pyLookup ([] : List (String × α)) k = none := rfl

@[simp] theorem pyLookup_cons {α : Type} (k k' : String) (v : α) (t : List (String × α)) :
    pyLookup ((k', v) :: t) k = if k' = k then some v else pyLookup t k := rfl

theorem pyLookup_eq_none_iff {α : Type} (m : List (String × α)) (k : String) :
    pyLookup m k = none ↔ k ∉ m.map Prod.fst := by
  induction m with
  | nil => simp
  | cons p t ih =>
    obtain ⟨k', v⟩ := p
    by_cases h : k' = k <;> simp [pyLookup, h, ih, Ne.symm, eq_comm]

theorem pyLookup_isSome_mem {α : Type} (m : List (String × α)) (k : String) {v : α}
    (h : pyLookup m k = some v) : k ∈ m.map Prod.fst := by
  by_contra hk
  rw [← pyLookup_eq_none_iff] at hk
  simp [hk] at h

@[simp] theorem modifyFirst_keys {α : Type} (k : String) (f : α → α) (m : List (String × α)) :
    (modifyFirst k f m).map Prod.fst = m.map Prod.fst := by
  induction m with
  | nil => rfl
  | cons p t ih =>
    obtain ⟨k', v⟩ := p
    by_cases h : k' = k <;> simp [modifyFirst, h, ih]

theorem pyLookup_modifyFirst {α : Type} (k k' : String) (f : α → α) (m : List (String × α)) :
    pyLookup (modifyFirst k f m) k' =
      if k' = k then (pyLookup m k).map f else pyLookup m k' := by
  induction m with
  | nil => by_cases h : k' = k <;> simp [modifyFirst, h]
  | cons p t ih =>
    obtain ⟨k₀, v⟩ := p
    by_cases h0 : k₀ = k
    · subst h0
      by_cases h1 : k' = k₀
      · subst h1
        simp [modifyFirst, pyLookup]
      · have h1' : ¬ k₀ = k' := fun h => h1 h.symm
        simp [modifyFirst, pyLookup, h1, h1']
    · by_cases h1 : k₀ = k'
      · subst h1
        simp [pyLookup, modifyFirst, h0]
      · have h2 := ih
        simp [modifyFirst, pyLookup, h0, h1, h2]

theorem pyLookup_append_left {α : Type} (m t : List (String × α)) (k : String) {v : α}
    (h : pyLookup m k = some v) : pyLookup (m ++ t) k = some v := by
  induction m with
  | nil => simp [pyLookup] at h
  | cons p m ih =>
    obtain ⟨k', w⟩ := p
    by_cases hk : k' = k <;> simp_all [pyLookup]

theorem pyLookup_append_right {α : Type} (m t : List (String × α)) (k : String)
    (h : pyLookup m k = none) : pyLookup (m ++ t) k = pyLookup t k := by
  induction m with
  | nil => simp
  | cons p m ih =>
    obtain ⟨k', w⟩ := p
    by_cases hk : k' = k <;> simp_all [pyLookup]

/-- Extensionality for dicts with distinct keys: same key sequence and same
lookups force equality. -/
theorem dict_ext {α : Type} (m₁ m₂ : List (String × α))
    (hkeys : m₁.map Prod.fst = m₂.map Prod.fst)
    (hnd : (m₁.map Prod.fst).Nodup)
    (hlook : ∀ k, pyLookup m₁ k = pyLookup m₂ k) : m₁ = m₂ := by
  induction m₁ generalizing m₂ with
  | nil =>
    cases m₂ with
    | nil => rfl
    | cons q t => simp at hkeys
  | cons p t ih =>
    cases m₂ with
    | nil => simp at hkeys
    | cons q t₂ =>
      obtain ⟨k, v⟩ := p
      obtain ⟨k₂, v₂⟩ := q
      simp only [List.map_cons, List.cons.injEq] at hkeys
      obtain ⟨hk, htk⟩ := hkeys
      subst hk
      have hv : some v = some v₂ := by simpa [pyLookup] using hlook k
      have hnd' : (t.map Prod.fst).Nodup := (List.nodup_cons.mp hnd).2
      have hknot : k ∉ t.map Prod.fst := (List.nodup_cons.mp hnd).1
      have htails : t = t₂ := by
        apply ih t₂ htk hnd'
        intro k'
        by_cases hkk : k' = k
        · subst hkk
          have h1 : pyLookup t k' = none := (pyLookup_eq_none_iff t k').mpr hknot
          have h2 : pyLookup t₂ k' = none := by
            rw [pyLookup_eq_none_iff, ← htk]; exact hknot
          rw [h1, h2]
        · have hkk' : ¬ k = k' := fun h => hkk h.symm
          simpa [pyLookup, hkk'] using hlook k'
      simp [htails, Option.some.inj hv]

/-! ## Price extraction (`extract_price_from_card`, olx_monitor.py lines 75-118)

`re.findall(r"(\d[\d\s]*zł...")` is embedded as an explicit scanner.  The
pattern is `(\d[\d\s]*\d|\d)\s*zł` with `re.IGNORECASE`: a captured group of
digits possibly containing inner digits/whitespace, optional whitespace, then
`zł` (case-insensitively, i.e. also `Z`/`Ł`).  The Python engine scans left
to right, at each position trying the first alternative with a greedy
(longest-first, backtracking) inner run, then the single-digit alternative,
and continues after the end of each successful match. -/

/-- Whitespace characters matched by Python `\s` on `str` patterns: the
exact 29 codepoints `re` accepts (U+0009–U+000D, U+001C–U+0020, U+0085,
U+00A0 no-break space — common in scraped Polish price text —, U+1680,
U+2000–U+200A, U+2028, U+2029, U+202F, U+205F, U+3000). -/
def pySpace (c : Char) : Bool :=
  decide ((0x9 ≤ c.toNat ∧ c.toNat ≤ 0xd) ∨ (0x1c ≤ c.toNat ∧ c.toNat ≤ 0x20) ∨
    c.toNat = 0x85 ∨ c.toNat = 0xa0 ∨ c.toNat = 0x1680 ∨
    (0x2000 ≤ c.toNat ∧ c.toNat ≤ 0x200a) ∨ c.toNat = 0x2028 ∨ c.toNat = 0x2029 ∨
    c.toNat = 0x202f ∨ c.toNat = 0x205f ∨ c.toNat = 0x3000)

/-- Character class `[\d\s]` of the inner run of the price pattern.  Digits
are the ASCII `0-9` — the digits the scraped pages and the subsequent `int`
conversions of this program use. -/
def digSp (c : Char) : Bool := c.isDigit || pySpace c

/-- Matches the tail `\s*zł` of the price pattern (case-insensitive `zł`);
returns the remaining characters after the match.  Because `z`/`Z` is not
whitespace, the greedy `\s*` has a unique viable extent. -/
def matchZl (s : List Char) : Option (List Char) :=
  match s.dropWhile pySpace with
  | c₁ :: c₂ :: rest =>
    if (c₁ = 'z' || c₁ = 'Z') && (c₂ = 'ł' || c₂ = 'Ł') then some rest else none
  | _ => none

theorem length_dropWhile_le (p : Char → Bool) (l : List Char) :
    (l.dropWhile p).length ≤ l.length := by
  induction l with
  | nil => simp
  | cons c t ih =>
    by_cases h : p c <;> simp [List.dropWhile, h] <;> omega

theorem matchZl_length_le (s : List Char) {r : List Char} (h : matchZl s = some r) :
    r.length ≤ s.length := by
  unfold matchZl at h
  have hdw : (s.dropWhile pySpace).length ≤ s.length := length_dropWhile_le pySpace s
  cases hs : s.dropWhile pySpace with
  | nil => rw [hs] at h; exact absurd h (by simp)
  | cons c₁ t =>
    cases t with
    | nil => rw [hs] at h; exact absurd h (by simp)
    | cons c₂ rest =>
      rw [hs] at h hdw
      by_cases hc : (c₁ = 'z' || c₁ = 'Z') && (c₂ = 'ł' || c₂ = 'Ł')
      · simp only [hc, if_true] at h
        cases h
        simp at hdw
        omega
      · simp [hc] at h

/-- Backtracking search for the final `\d` of the alternative `\d[\d\s]*\d`:
`ks` lists the candidate positions (in the order the engine tries them), the
run being the maximal `[\d\s]*` extent.  Returns `(groupTail, rest)` for the
first position holding a digit whose `\s*zł` suffix also matches. -/
def branchSearch (cs run : List Char) : List Nat → Option (List Char × List Char)
  | [] => none
  | k :: ks =>
    match run.get? k with
    | some d =>
      if d.isDigit then
        match matchZl (cs.drop (k + 1)) with
        | some r => some (run.take (k + 1), r)
        | none => branchSearch cs run ks
      else branchSearch cs run ks
    | none => branchSearch cs run ks

theorem branchSearch_length_le (cs run : List Char) (ks : List Nat) {g r : List Char}
    (h : branchSearch cs run ks = some (g, r)) : r.length ≤ cs.length := by
  induction ks with
  | nil => simp [branchSearch] at h
  | cons k ks ih =>
    unfold branchSearch at h
    cases hg : run.get? k with
    | none => rw [hg] at h; exact ih h
    | some d =>
      rw [hg] at h
      by_cases hd : d.isDigit
      · simp only [hd, if_true] at h
        cases hz : matchZl (cs.drop (k + 1)) with
        | none => rw [hz] at h; exact ih h
        | some r' =>
          rw [hz] at h
          cases h
          calc r.length ≤ (cs.drop (k + 1)).length := by
                have := matchZl_length_le (cs.drop (k + 1)) hz
                exact this
            _ ≤ cs.length := by simp
      · simp only [hd, if_false] at h; exact ih h

/-- First alternative `\d[\d\s]*\d` of the captured group (leading digit
already consumed): the maximal `[\d\s]` run is scanned for the final digit
greedily, from the longest extent backwards. -/
def branchLong (cs : List Char) : Option (List Char × List Char) :=
  branchSearch cs (cs.takeWhile digSp) ((List.range (cs.takeWhile digSp).length).reverse)

theorem branchLong_length_le (cs : List Char) {g r : List Char}
    (h : branchLong cs = some (g, r)) : r.length ≤ cs.length :=
  branchSearch_length_le _ _ _ h

/-- Attempt to match the whole price pattern at a position whose first
character is `c` (rest `cs`): first the long alternative, then the
single-digit one.  Returns the captured group and the remainder after the
match. -/
def matchPriceHead (c : Char) (cs : List Char) : Option (List Char × List Char) :=
  if c.isDigit then
    match branchLong cs with
    | some (g, r) => some (c :: g, r)
    | none =>
      match matchZl cs with
      | some r => some ([c], r)
      | none => none
  else none

theorem matchPriceHead_length_le (c : Char) (cs : List Char) {g r : List Char}
    (h : matchPriceHead c cs = some (g, r)) : r.length ≤ cs.length := by
  unfold matchPriceHead at h
  by_cases hc : c.isDigit
  · simp only [hc, if_true] at h
    cases hb : branchLong cs with
    | some gr =>
      obtain ⟨g', r'⟩ := gr
      rw [hb] at h
      cases h
      exact branchLong_length_le cs hb
    | none =>
      rw [hb] at h
      cases hz : matchZl cs with
      | some r' =>
        rw [hz] at h
        cases h
        exact matchZl_length_le cs hz
      | none => rw [hz] at h; exact absurd h (by simp)
  · simp [hc] at h

/-- Scanner loop of `re.findall`, with explicit fuel so that the recursion is
structural (and hence kernel-reducible).  Fuel `s.length + 1` always
suffices, since each successful match consumes at least one character
(`matchPriceHead_length_le`). -/
def findallGo : Nat → List Char → List (List Char)
  | 0, _ => []
  | _ + 1, [] => []
  | fuel + 1, c :: cs =>
    match matchPriceHead c cs with
    | some gr => gr.1 :: findallGo fuel gr.2
    | none => findallGo fuel cs

/-- `re.findall(r"(\d[\d\s]*\d|\d)\s*zł", text, re.IGNORECASE)`: scan left to
right, emit the captured group of each (non-overlapping) match and continue
after its end. -/
def findallPrice (s : List Char) : List (List Char) :=
  findallGo (s.length + 1) s

/-- Numeric value of a digit string (`int` of the digits of a match). -/
def digitsToNat (ds : List Char) : Nat :=
  ds.foldl (fun n c => n * 10 + (c.toNat - 48)) 0

def MIN_PRICE : Nat := 150
def MAX_PRICE : Nat := 20000

/-- Loop body of `extract_price_from_card`: converts every match to a number
(`re.sub(r"[^\d]", "", match)` then `int`), skipping empty / `"0"` strings,
and keeps the values inside `[MIN_PRICE, MAX_PRICE]`. -/
def collectPrices : List (List Char) → List Nat
  | [] => []
  | m :: ms =>
    let ds := m.filter Char.isDigit
    if ds = [] ∨ ds = ['0'] then collectPrices ms
    else
      let p := digitsToNat ds
      if MIN_PRICE ≤ p ∧ p ≤ MAX_PRICE then p :: collectPrices ms else collectPrices ms

/-- Python `min` over a non-empty list (head seeding a fold). -/
def pyMin (a : Nat) (l : List Nat) : Nat := l.foldl Nat.min a

/-- `extract_price_from_card` (olx_monitor.py lines 75-118). -/
def extract_price_from_card (s : String) : Nat :=
  let ms := findallPrice s.data
  if ms = [] then 0
  else
    match collectPrices ms with
    | [] => 0
    | p :: ps => pyMin p ps

/-- Numeric amounts of all groups matched by the price pattern in `s`. -/
def matchedVals (s : String) : List Nat :=
  (findallPrice s.data).map (fun m => digitsToNat (m.filter Char.isDigit))

/-- The matched amounts lying inside `[MIN_PRICE, MAX_PRICE]`. -/
def validVals (s : String) : List Nat :=
  (matchedVals s).filter (fun v => decide (MIN_PRICE ≤ v ∧ v ≤ MAX_PRICE))

theorem collectPrices_eq (ms : List (List Char)) :
    collectPrices ms = (ms.map (fun m => digitsToNat (m.filter Char.isDigit))).filter
      (fun v => decide (MIN_PRICE ≤ v ∧ v ≤ MAX_PRICE)) := by
  induction ms with
  | nil => rfl
  | cons m ms ih =>
    simp only [collectPrices, List.map_cons, List.filter_cons]
    by_cases h0 : m.filter Char.isDigit = [] ∨ m.filter Char.isDigit = ['0']
    · have hz : digitsToNat (m.filter Char.isDigit) = 0 := by
        rcases h0 with h | h <;> rw [h] <;> rfl
      rw [if_pos h0, hz]
      simpa [MIN_PRICE, MAX_PRICE] using ih
    · rw [if_neg h0]
      by_cases h1 : MIN_PRICE ≤ digitsToNat (m.filter Char.isDigit) ∧
          digitsToNat (m.filter Char.isDigit) ≤ MAX_PRICE
      · rw [if_pos h1, ih]
        simp [h1]
      · rw [if_neg h1, ih]
        simp [h1]

theorem pyMin_eq_or_mem (a : Nat) (l : List Nat) : pyMin a l = a ∨ pyMin a l ∈ l := by
  induction l generalizing a with
  | nil => left; rfl
  | cons b t ih =>
    have hstep : pyMin a (b :: t) = pyMin (Nat.min a b) t := rfl
    have hab : Nat.min a b = a ∨ Nat.min a b = b := by
      rcases Nat.le_total a b with h' | h'
      · left; exact Nat.min_eq_left h'
      · right; exact Nat.min_eq_right h'
    rw [hstep]
    rcases ih (Nat.min a b) with h | h
    · rcases hab with h2 | h2
      · left; rw [h, h2]
      · right; rw [h, h2]; exact List.mem_cons_self _ _
    · right; exact List.mem_cons_of_mem _ h

theorem pyMin_le (a : Nat) (l : List Nat) : pyMin a l ≤ a ∧ ∀ v ∈ l, pyMin a l ≤ v := by
  induction l generalizing a with
  | nil => exact ⟨Nat.le_refl a, by simp⟩
  | cons b t ih =>
    have hstep : pyMin a (b :: t) = pyMin (Nat.min a b) t := rfl
    obtain ⟨h1, h2⟩ := ih (Nat.min a b)
    rw [hstep]
    refine ⟨Nat.le_trans h1 (Nat.min_le_left a b), ?_⟩
    intro v hv
    rcases List.mem_cons.mp hv with rfl | hv
    · exact Nat.le_trans h1 (Nat.min_le_right a _)
    · exact h2 v hv

/-- C10.  `extract_price_from_card` returns the minimum of all amounts matched
by the `digits + zł` pattern lying within `[MIN_PRICE, MAX_PRICE] = [150, 20000]`,
and `0` when no matched amount lies in that range; consequently its result is
never strictly between `0` and `150` and never greater than `20000`. -/
theorem extract_price_from_card_spec (s : String) :
    (validVals s = [] → extract_price_from_card s = 0) ∧
    (validVals s ≠ [] → extract_price_from_card s ∈ validVals s ∧
      ∀ v ∈ validVals s, extract_price_from_card s ≤ v) ∧
    ¬ (0 < extract_price_from_card s ∧ extract_price_from_card s < MIN_PRICE) ∧
    extract_price_from_card s ≤ MAX_PRICE := by
  have hcoll : collectPrices (findallPrice s.data) = validVals s := by
    rw [collectPrices_eq]; rfl
  have hmain : (validVals s = [] → extract_price_from_card s = 0) ∧
      (validVals s ≠ [] → extract_price_from_card s ∈ validVals s ∧
        ∀ v ∈ validVals s, extract_price_from_card s ≤ v) := by
    constructor
    · intro hnil
      unfold extract_price_from_card
      by_cases hms : findallPrice s.data = []
      · simp [hms]
      · rw [if_neg hms]
        rw [hcoll, hnil]
    · intro hne
      have hms : findallPrice s.data ≠ [] := by
        intro h
        apply hne
        rw [← hcoll, h]; rfl
      unfold extract_price_from_card
      rw [if_neg hms]
      rcases hv : collectPrices (findallPrice s.data) with _ | ⟨p, ps⟩
      · exact absurd (hcoll.symm.trans hv) hne
      · have hv' : validVals s = p :: ps := hcoll.symm.trans hv
        rw [hv']
        constructor
        · show pyMin p ps ∈ p :: ps
          rcases pyMin_eq_or_mem p ps with h | h
          · rw [h]; exact List.mem_cons_self _ _
          · exact List.mem_cons_of_mem _ h
        · show ∀ v ∈ p :: ps, pyMin p ps ≤ v
          intro v hvv
          rcases List.mem_cons.mp hvv with h | h
          · rw [h]; exact (pyMin_le p ps).1
          · exact (pyMin_le p ps).2 v h
  refine ⟨hmain.1, hmain.2, ?_⟩
  by_cases hnil : validVals s = []
  · rw [hmain.1 hnil]
    exact ⟨by simp, by simp [MAX_PRICE]⟩
  · obtain ⟨hmem, -⟩ := hmain.2 hnil
    have := List.mem_filter.mp hmem
    have hrange := of_decide_eq_true this.2
    exact ⟨fun h => absurd h.2 (Nat.not_lt.mpr hrange.1), hrange.2⟩

/-- Witness for C10 at the concrete input `"899 zł/mies"`. -/
theorem extract_price_from_card_spec_witness :
    validVals "899 zł/mies" ≠ [] ∧
      extract_price_from_card "899 zł/mies" ∈ validVals "899 zł/mies" :=
  ⟨by decide, ((extract_price_from_card_spec "899 zł/mies").2.1 (by decide)).1⟩

/-! ## Substring and number helpers (for `re.compile` / `re.search`) -/

/-- Does `n` occur at the start of `s`? -/
def listStarts : List Char → List Char → Bool
  | [], _ => true
  | _ :: _, [] => false
  | a :: as, b :: bs => a = b && listStarts as bs

/-- Does `n` occur anywhere inside `s` (Python `pattern in text` /
`re.compile(lit).search`)? -/
def listHasSub (n : List Char) : List Char → Bool
  | [] => n.isEmpty
  | c :: rest => listStarts n (c :: rest) || listHasSub n rest

/-- `re.search(r"(\d+)", s)`: value of the first maximal digit run, if any. -/
def firstNumber (s : List Char) : Option Nat :=
  match s.dropWhile (fun c => !c.isDigit) with
  | [] => none
  | c :: rest => some (digitsToNat ((c :: rest).takeWhile Char.isDigit))

/-! ## Cross-check (`crosscheck_count`, olx_monitor.py lines 122-131) -/

/-- `crosscheck_count`: scan the page's text nodes for ones containing
`Znaleźliśmy`; return the first number found in such a node. -/
def crosscheck_count : List String → Option Nat
  | [] => none
  | t :: ts =>
    if listHasSub "Znaleźliśmy".data t.data then
      match firstNumber t.data with
      | some n => some n
      | none => crosscheck_count ts
    else crosscheck_count ts

/-! ## The scraper (`scrape_profile`, olx_monitor.py lines 163-252)

An already-fetched-and-parsed page is modelled by the features the scraper
reads: the `div[type="list"]` cards (each with its `<a>` descendants, first
`<p>` text and full text), the page-wide `/d/oferta/` anchors used by the
fallback pass (with their BeautifulSoup ancestor), and the page's text nodes
(for the cross-check).  The network-error early return (`[], None, None`) is
outside the model.  Each produced listing is paired with the raw `href` of
the anchor it came from; the pair's first component is specification
instrumentation only — the listing dict itself matches the Python one. -/

/-- `re.sub(r"\?.*", "", href)` — `.` does not match a newline, so each `?`
erases characters up to the next newline or the end (structural fuel
recursion; fuel `s.length + 1` always suffices). -/
def stripQueryGo : Nat → List Char → List Char
  | 0, _ => []
  | _ + 1, [] => []
  | fuel + 1, c :: rest =>
    if c = '?' then stripQueryGo fuel (rest.dropWhile (fun x => x ≠ '\n'))
    else c :: stripQueryGo fuel rest

def stripQuery (s : List Char) : List Char := stripQueryGo (s.length + 1) s

/-- Query-stripping on `String`s. -/
def sQ (s : String) : String := ⟨stripQuery s.data⟩

/-- Is `c` one of the characters ending the id segment (`[^/?\.]`)? -/
def isStop (c : Char) : Bool := c = '/' || c = '?' || c = '.'

/-- Try `re.search(r"/d/oferta/([^/?\.]+)", ·)` at the current position:
the literal, then a non-empty maximal run of non-stop characters. -/
def tryOferta (s : List Char) : Option (List Char) :=
  if listStarts "/d/oferta/".data s then
    let seg := (s.drop 10).takeWhile (fun x => !isStop x)
    if seg.isEmpty then none else some seg
  else none

/-- `re.search` scan for the id pattern: first position where it matches. -/
def osGo : List Char → Option (List Char)
  | [] => none
  | c :: rest =>
    match tryOferta (c :: rest) with
    | some seg => some seg
    | none => osGo rest

/-- The listing id derived from a query-stripped href (olx_monitor.py lines
198-199 and 229-230): the captured segment, else the href with `/`→`_`. -/
def listingIdOfHref (href : List Char) : String :=
  match osGo href with
  | some seg => ⟨seg⟩
  | none => ⟨href.map (fun c => if c = '/' then '_' else c)⟩

/-- `("https://www.olx.pl" + href) if href.startswith("/") else href`. -/
def fullUrlOfHref (href : String) : String :=
  match href.data with
  | '/' :: _ => "https://www.olx.pl" ++ href
  | _ => href

/-- A scraped listing dict (olx_monitor.py lines 201-209). -/
structure Listing where
  id : String
  profile : String
  title : String
  price : Nat
  url : String
  created : Option String
  days_old : Option Nat
deriving DecidableEq

/-- An `<a>` element: its `href` attribute and its `get_text(strip=True)`. -/
structure Anchor where
  href : String
  text : String
deriving DecidableEq

/-- A `div[type="list"]` card: its `<a>` descendants in document order, the
text of its first `<p>` (if any), and `get_text(" ", strip=True)`. -/
structure Card where
  anchors : List Anchor
  pText : Option String
  text : String
deriving DecidableEq

/-- The ancestor used by the fallback pass (`a.parent.parent` or
`a.parent`): its first `<p>` text and its full text. -/
structure Ancestor where
  pText : Option String
  text : String
deriving DecidableEq

/-- A page-wide anchor as seen by the fallback pass. -/
structure FAnchor where
  href : String
  ancestor : Option Ancestor
deriving DecidableEq

/-- The features of a fetched profile page read by `scrape_profile`. -/
structure Page where
  cards : List Card
  anchors : List FAnchor
  texts : List String
deriving DecidableEq

/-- `card.find("a", href=lambda h: h and "/d/oferta/" in h)` condition. -/
def hasOferta (h : String) : Bool := listHasSub "/d/oferta/".data h.data

/-- Pass 1 of `scrape_profile` (olx_monitor.py lines 177-209): iterate the
cards, deduplicate on the query-stripped href (the `seen` set), reject short
titles, and build the listing dicts.  Returns the emitted
`(raw href, listing)` pairs and the final `seen` set. -/
def scrapeCards (profileName : String) :
    List Card → List String → List (String × Listing) × List String
  | [], seen => ([], seen)
  | card :: cs, seen =>
    match card.anchors.find? (fun a => hasOferta a.href) with
    | none => scrapeCards profileName cs seen
    | some a =>
      let href := sQ a.href
      if href ∈ seen then scrapeCards profileName cs seen
      else
        let seen' := href :: seen
        let title := match card.pText with | some t => t | none => a.text
        if title.length < 5 then scrapeCards profileName cs seen'
        else
          let listing : Listing :=
            { id := listingIdOfHref href.data, profile := profileName, title := title,
              price := extract_price_from_card card.text, url := fullUrlOfHref href,
              created := none, days_old := none }
          let rest := scrapeCards profileName cs seen'
          ((a.href, listing) :: rest.1, rest.2)

/-- Pass 2 of `scrape_profile` (olx_monitor.py lines 212-234): the
page-wide href fallback, sharing the `seen` set with pass 1. -/
def scrapeAnchors (profileName : String) :
    List FAnchor → List String → List (String × Listing) × List String
  | [], seen => ([], seen)
  | fa :: fas, seen =>
    if hasOferta fa.href then
      let href := sQ fa.href
      if href ∈ seen then scrapeAnchors profileName fas seen
      else
        let seen' := href :: seen
        match fa.ancestor with
        | none => scrapeAnchors profileName fas seen'
        | some anc =>
          let title := match anc.pText with | some t => t | none => ""
          if title.length < 5 then scrapeAnchors profileName fas seen'
          else
            let listing : Listing :=
              { id := listingIdOfHref href.data, profile := profileName, title := title,
                price := extract_price_from_card anc.text, url := fullUrlOfHref href,
                created := none, days_old := none }
            let rest := scrapeAnchors profileName fas seen'
            ((fa.href, listing) :: rest.1, rest.2)
    else scrapeAnchors profileName fas seen

/-- `scrape_profile` (without the network layer): the two scraping passes
— pass 2 runs only when pass 1 produced no listings, inheriting its `seen`
set — followed by the cross-check against the official counter. -/
def scrape_profile (profileName : String) (page : Page) :
    List (String × Listing) × Option Nat × Option Bool :=
  let r1 := scrapeCards profileName page.cards []
  let pairs := if r1.1.isEmpty then (scrapeAnchors profileName page.anchors r1.2).1 else r1.1
  let official := crosscheck_count page.texts
  let cc_ok : Option Bool :=
    match official with
    | none => none
    | some o => if pairs.length = o then some true else some false
  (pairs, official, cc_ok)

/-- C4.  The cross-check result of `scrape_profile` is a trichotomy: `none`
exactly when no `Znaleźliśmy`-with-a-number counter text exists on the page,
`some true` exactly when a counter is found and the number of scraped
listings equals it, and `some false` exactly when a counter is found and the
counts differ. -/
theorem scrape_profile_crosscheck_trichotomy (profileName : String) (page : Page) :
    ((scrape_profile profileName page).2.2 = none ↔ crosscheck_count page.texts = none) ∧
    ((scrape_profile profileName page).2.2 = some true ↔
      ∃ n, crosscheck_count page.texts = some n ∧ (scrape_profile profileName page).1.length = n) ∧
    ((scrape_profile profileName page).2.2 = some false ↔
      ∃ n, crosscheck_count page.texts = some n ∧ (scrape_profile profileName page).1.length ≠ n) := by
  have hpair : (scrape_profile profileName page).2.2 =
      (match crosscheck_count page.texts with
       | none => none
       | some o =>
         if (scrape_profile profileName page).1.length = o then some true else some false) := rfl
  rw [hpair]
  generalize (scrape_profile profileName page).1.length = scraped
  cases hcc : crosscheck_count page.texts with
  | none => simp
  | some o => by_cases h : scraped = o <;> simp [h]

/-! ## C8 / C9: listing ids and snapshot dedup -/

theorem scrapeCards_pairs_id (profileName : String) (cs : List Card) (seen : List String) :
    ∀ pr ∈ (scrapeCards profileName cs seen).1,
      pr.2.id = listingIdOfHref (stripQuery pr.1.data) := by
  induction cs generalizing seen with
  | nil => simp [scrapeCards]
  | cons card cs ih =>
    intro pr hpr
    rw [scrapeCards] at hpr
    cases hfind : card.anchors.find? (fun a => hasOferta a.href) with
    | none =>
      rw [hfind] at hpr
      exact ih seen pr hpr
    | some a =>
      rw [hfind] at hpr
      simp only at hpr
      by_cases hseen : sQ a.href ∈ seen
      · rw [if_pos hseen] at hpr
        exact ih seen pr hpr
      · rw [if_neg hseen] at hpr
        by_cases htitle : (match card.pText with | some t => t | none => a.text).length < 5
        · rw [if_pos htitle] at hpr
          exact ih _ pr hpr
        · rw [if_neg htitle] at hpr
          rcases List.mem_cons.mp hpr with h | h
          · rw [h]; rfl
          · exact ih _ pr h

theorem scrapeAnchors_pairs_id (profileName : String) (fas : List FAnchor) (seen : List String) :
    ∀ pr ∈ (scrapeAnchors profileName fas seen).1,
      pr.2.id = listingIdOfHref (stripQuery pr.1.data) := by
  induction fas generalizing seen with
  | nil => simp [scrapeAnchors]
  | cons fa fas ih =>
    intro pr hpr
    rw [scrapeAnchors] at hpr
    by_cases hhas : hasOferta fa.href
    · rw [if_pos hhas] at hpr
      by_cases hseen : sQ fa.href ∈ seen
      · rw [if_pos hseen] at hpr
        exact ih seen pr hpr
      · rw [if_neg hseen] at hpr
        cases hanc : fa.ancestor with
        | none =>
          rw [hanc] at hpr
          exact ih _ pr hpr
        | some anc =>
          rw [hanc] at hpr
          simp only at hpr
          by_cases htitle : (match anc.pText with | some t => t | none => "").length < 5
          · rw [if_pos htitle] at hpr
            exact ih _ pr hpr
          · rw [if_neg htitle] at hpr
            rcases List.mem_cons.mp hpr with h | h
            · rw [h]; rfl
            · exact ih _ pr h
    · rw [if_neg hhas] at hpr
      exact ih seen pr hpr

/-- C8.  Every listing retained by `scrape_profile` derives its id from its
anchor's URL: the path segment following `/d/oferta/` (up to the next `/`,
`?` or `.`) when that pattern matches the query-stripped href, and otherwise
the query-stripped href with every `/` replaced by `_`. -/
theorem scrape_profile_listing_id (profileName : String) (page : Page)
    (pr : String × Listing) (hpr : pr ∈ (scrape_profile profileName page).1) :
    (∀ seg, osGo (stripQuery pr.1.data) = some seg → pr.2.id = ⟨seg⟩) ∧
    (osGo (stripQuery pr.1.data) = none →
      pr.2.id = ⟨(stripQuery pr.1.data).map (fun c => if c = '/' then '_' else c)⟩) := by
  have hid : pr.2.id = listingIdOfHref (stripQuery pr.1.data) := by
    rw [scrape_profile] at hpr
    simp only at hpr
    by_cases hemp : (scrapeCards profileName page.cards []).1.isEmpty
    · rw [if_pos hemp] at hpr
      exact scrapeAnchors_pairs_id profileName page.anchors _ pr hpr
    · rw [if_neg hemp] at hpr
      exact scrapeCards_pairs_id profileName page.cards [] pr hpr
  constructor
  · intro seg hseg
    rw [hid, listingIdOfHref, hseg]
  · intro hnone
    rw [hid, listingIdOfHref, hnone]

theorem scrapeCards_nodup (profileName : String) (cs : List Card) (seen : List String) :
    (((scrapeCards profileName cs seen).1.map (fun pr => sQ pr.1)).Nodup) ∧
    (∀ pr ∈ (scrapeCards profileName cs seen).1, sQ pr.1 ∉ seen) := by
  induction cs generalizing seen with
  | nil => simp [scrapeCards]
  | cons card cs ih =>
    cases hfind : card.anchors.find? (fun a => hasOferta a.href) with
    | none =>
      simp only [scrapeCards, hfind]
      exact ih seen
    | some a =>
      simp only [scrapeCards, hfind]
      by_cases hseen : sQ a.href ∈ seen
      · simp only [if_pos hseen]
        exact ih seen
      · simp only [if_neg hseen]
        by_cases htitle : (match card.pText with | some t => t | none => a.text).length < 5
        · simp only [if_pos htitle]
          obtain ⟨h1, h2⟩ := ih (sQ a.href :: seen)
          exact ⟨h1, fun pr hpr hmem => h2 pr hpr (List.mem_cons_of_mem _ hmem)⟩
        · simp only [if_neg htitle]
          obtain ⟨h1, h2⟩ := ih (sQ a.href :: seen)
          constructor
          · simp only [List.map_cons]
            refine List.nodup_cons.mpr ⟨?_, h1⟩
            intro hmem
            rcases List.mem_map.mp hmem with ⟨pr, hpr, heq⟩
            exact h2 pr hpr (heq ▸ List.mem_cons_self _ _)
          · intro pr hpr
            rcases List.mem_cons.mp hpr with h | h
            · rw [h]; exact hseen
            · intro hmem
              exact h2 pr h (List.mem_cons_of_mem _ hmem)

theorem scrapeAnchors_nodup (profileName : String) (fas : List FAnchor) (seen : List String) :
    (((scrapeAnchors profileName fas seen).1.map (fun pr => sQ pr.1)).Nodup) ∧
    (∀ pr ∈ (scrapeAnchors profileName fas seen).1, sQ pr.1 ∉ seen) := by
  induction fas generalizing seen with
  | nil => simp [scrapeAnchors]
  | cons fa fas ih =>
    by_cases hhas : hasOferta fa.href
    · simp only [scrapeAnchors, if_pos hhas]
      by_cases hseen : sQ fa.href ∈ seen
      · simp only [if_pos hseen]
        exact ih seen
      · simp only [if_neg hseen]
        cases hanc : fa.ancestor with
        | none =>
          obtain ⟨h1, h2⟩ := ih (sQ fa.href :: seen)
          exact ⟨h1, fun pr hpr hmem => h2 pr hpr (List.mem_cons_of_mem _ hmem)⟩
        | some anc =>
          by_cases htitle : (match anc.pText with | some t => t | none => "").length < 5
          · simp only [if_pos htitle]
            obtain ⟨h1, h2⟩ := ih (sQ fa.href :: seen)
            exact ⟨h1, fun pr hpr hmem => h2 pr hpr (List.mem_cons_of_mem _ hmem)⟩
          · simp only [if_neg htitle]
            obtain ⟨h1, h2⟩ := ih (sQ fa.href :: seen)
            constructor
            · simp only [List.map_cons]
              refine List.nodup_cons.mpr ⟨?_, h1⟩
              intro hmem
              rcases List.mem_map.mp hmem with ⟨pr, hpr, heq⟩
              exact h2 pr hpr (heq ▸ List.mem_cons_self _ _)
            · intro pr hpr
              rcases List.mem_cons.mp hpr with h | h
              · rw [h]; exact hseen
              · intro hmem
                exact h2 pr h (List.mem_cons_of_mem _ hmem)
    · simp only [scrapeAnchors, if_neg hhas]
      exact ih seen

/-- C9 (amended).  A snapshot is duplicate-free: no two listings returned by
`scrape_profile` share the same query-stripped href, so an ad whose link
appears multiple times in the page yields at most one listing. -/
theorem scrape_profile_snapshot_set (profileName : String) (page : Page) :
    (((scrape_profile profileName page).1.map (fun pr => sQ pr.1)).Nodup) ∧
    (∀ h : String, ((scrape_profile profileName page).1.map (fun pr => sQ pr.1)).count h ≤ 1) := by
  have hnd : (((scrape_profile profileName page).1.map (fun pr => sQ pr.1)).Nodup) := by
    have h1 := scrapeCards_nodup profileName page.cards []
    have h2 := scrapeAnchors_nodup profileName page.anchors
      (scrapeCards profileName page.cards []).2
    show ((if (scrapeCards profileName page.cards []).1.isEmpty
        then (scrapeAnchors profileName page.anchors (scrapeCards profileName page.cards []).2).1
        else (scrapeCards profileName page.cards []).1).map (fun pr => sQ pr.1)).Nodup
    by_cases hemp : (scrapeCards profileName page.cards []).1.isEmpty
    · rw [if_pos hemp]; exact h2.1
    · rw [if_neg hemp]; exact h1.1
  exact ⟨hnd, fun h => List.nodup_iff_count_le_one.mp hnd h⟩

/-- C9 counterexample page: the same ad link appears in two cards, the first
with a too-short title (< 5 characters), the second with a valid one. -/
def cAnchor : Anchor := ⟨"/d/oferta/test-ad", "t"⟩

def cCard1 : Card := ⟨[cAnchor], some "abc", "abc"⟩

def cCard2 : Card := ⟨[cAnchor], some "valid title", "valid title 500 zł"⟩

def cpage : Page := ⟨[cCard1, cCard2], [], []⟩

/-- C9 counterexample.  On `cpage` the ad's link appears in two cards (both
passes considered), yet `scrape_profile` yields zero listings for it — not
exactly one: the first (short-titled) card consumes the href into the `seen`
set before the title check, so the second card is skipped as a duplicate. -/
theorem scrape_profile_snapshot_counterexample :
    cpage.cards.countP (fun c => c.anchors.any (fun a => sQ a.href == "/d/oferta/test-ad")) = 2 ∧
    (scrape_profile "p" cpage).1.countP (fun pr => sQ pr.1 == "/d/oferta/test-ad") = 0 := by
  constructor
  · decide
  · decide

/-- Witness page for C8: one card with one offer anchor. -/
def wanchor : Anchor := ⟨"/d/oferta/moj-pokoj-CID3.html?param=1", "anchor text"⟩

def wcard : Card := ⟨[wanchor], some "Pokój w centrum", "Pokój w centrum 899 zł"⟩

def wpage : Page := ⟨[wcard], [], ["Znaleźliśmy 1 ogłoszenie"]⟩

def wlisting : Listing :=
  ⟨"moj-pokoj-CID3", "wp", "Pokój w centrum", 899,
    "https://www.olx.pl/d/oferta/moj-pokoj-CID3.html", none, none⟩

def wpair : String × Listing := ("/d/oferta/moj-pokoj-CID3.html?param=1", wlisting)

/-- Witness for C8: on the concrete page the emitted pair's id is the
captured path segment. -/
theorem scrape_profile_listing_id_witness :
    wpair ∈ (scrape_profile "wp" wpage).1 ∧ wpair.2.id = "moj-pokoj-CID3" :=
  ⟨by decide,
    by
      have h := (scrape_profile_listing_id "wp" wpage wpair (by decide)).1
        "moj-pokoj-CID3".data (by decide)
      exact h.trans (by decide)⟩

/-! ## Price history (`update_price_history`, olx_monitor.py lines 305-337)
and profile state (`save_profiles_state`, lines 430-522): data model

`price_history.json` maps listing ids to `{title, profile, created, prices}`
records; `profiles_state.json` maps profile names to
`{url, current, gone, history}` records, all written by this same program,
hence typed. -/

/-- One `{"date": …, "price": …}` point of a listing's price history. -/
structure PricePoint where
  date : String
  price : Nat
deriving DecidableEq

/-- One listing's record in `price_history.json`. -/
structure PHEntry where
  title : String
  profile : String
  created : String
  prices : List PricePoint
deriving DecidableEq

/-- An element of a profile's `current[]` array in `profiles_state.json`. -/
structure CurrEntry where
  id : String
  title : String
  price : Nat
  url : String
  status : String
  created : String
  daysOld : Option Nat
  date : String
  profile : String
deriving DecidableEq

/-- An element of a profile's `gone[]` array. -/
structure GoneEntry where
  id : String
  title : String
  price : Nat
  url : String
  date : String
deriving DecidableEq

/-- One day's aggregate history entry of a profile. -/
structure HEntry where
  date : String
  total : Nat
  newCount : Nat
  goneCount : Nat
deriving DecidableEq

/-- A profile's record in `profiles_state.json`. -/
structure ProfileEntry where
  url : String
  current : List CurrEntry
  gone : List GoneEntry
  history : List HEntry
deriving DecidableEq

/-- A configured profile (an element of `config["profiles"]`). -/
structure ProfileCfg where
  name : String
  url : String
deriving DecidableEq

/-- `prev_data.get(name, {})` yields an empty record. -/
def emptyProfileEntry : ProfileEntry := ⟨"", [], [], []⟩

/-- `by_profile[name]`: the listings of the current scrape grouped under the
given profile name (the `defaultdict` grouping preserves scan order). -/
def profListings (all_listings : List Listing) (name : String) : List Listing :=
  all_listings.filter (fun l => l.profile == name)

/-- The previous `current[]` array recorded for a profile. -/
def prevCurrOf (prev_data : List (String × ProfileEntry)) (name : String) : List CurrEntry :=
  ((pyLookup prev_data name).getD emptyProfileEntry).current

/-- `curr_ids`: the Python set of ids of the current scrape for a profile. -/
def currIdsOf (all_listings : List Listing) (name : String) : Finset String :=
  ((profListings all_listings name).map Listing.id).toFinset

/-- `prev_ids`: the Python set of ids of the previous `current[]`. -/
def prevIdsOf (prev_data : List (String × ProfileEntry)) (name : String) : Finset String :=
  ((prevCurrOf prev_data name).map CurrEntry.id).toFinset

/-- One element of the freshly built `current[]`
(olx_monitor.py lines 475-486). -/
def mkCurrEntry (today_pl name : String) (new_ids : Finset String) (l : Listing) : CurrEntry :=
  { id := l.id, title := l.title, price := l.price, url := l.url,
    status := if l.id ∈ new_ids then "new" else "existing",
    created := l.created.getD "", daysOld := l.days_old, date := today_pl, profile := name }

@[simp] theorem mkCurrEntry_id (today_pl name : String) (s : Finset String) (l : Listing) :
    (mkCurrEntry today_pl name s l).id = l.id := rfl

@[simp] theorem mkCurrEntry_status (today_pl name : String) (s : Finset String) (l : Listing) :
    (mkCurrEntry today_pl name s l).status = if l.id ∈ s then "new" else "existing" := rfl

/-- One element of the freshly built `gone[]` (olx_monitor.py lines 489-493). -/
def mkGoneEntry (today_pl : String) (pl : CurrEntry) : GoneEntry :=
  { id := pl.id, title := pl.title, price := pl.price, url := pl.url, date := today_pl }

/-- The body of the per-profile loop of `save_profiles_state`
(olx_monitor.py lines 461-511): set-difference classification of the current
scrape against the previous `current[]`, the `gone[]` projection, and the
history fold (replace today's entry, append, keep the last 30). -/
def profileEntryFor (today_pl today_str : String) (all_listings : List Listing)
    (prev_data : List (String × ProfileEntry)) (p : ProfileCfg) : ProfileEntry :=
  let listings := profListings all_listings p.name
  let prev_prof := (pyLookup prev_data p.name).getD emptyProfileEntry
  let prev_curr := prev_prof.current
  let new_ids := currIdsOf all_listings p.name \ prevIdsOf prev_data p.name
  let gone_ids := prevIdsOf prev_data p.name \ currIdsOf all_listings p.name
  let current : List CurrEntry := listings.map (mkCurrEntry today_pl p.name new_ids)
  let gone : List GoneEntry :=
    (prev_curr.filter (fun pl => decide (pl.id ∈ gone_ids))).map (mkGoneEntry today_pl)
  let history0 := (prev_prof.history.filter (fun h => h.date != today_str)) ++
    [{ date := today_str, total := current.length,
       newCount := new_ids.card, goneCount := gone_ids.card : HEntry }]
  let history := history0.drop (history0.length - 30)
  { url := p.url, current := current, gone := gone, history := history }

/-- `save_profiles_state` (olx_monitor.py lines 430-522), as a function from
the previously persisted state to the newly written one.  `today_pl` is
`today_label()` (e.g. `"17 lut"`), `today_str` the `"17 lut 2026"`-style
label; `price_history` is the (unused) third Python parameter.  Only the
configured profiles are iterated; the output dict is built by Python dict
assignment. -/
def save_profiles_state (today_pl today_str : String) (all_listings : List Listing)
    (profiles : List ProfileCfg) (price_history : List (String × PHEntry))
    (prev_data : List (String × ProfileEntry)) : List (String × ProfileEntry) :=
  profiles.foldl
    (fun out p => dictInsert p.name (profileEntryFor today_pl today_str all_listings prev_data p) out)
    []

theorem dictInsert_lookup {α : Type} (k k' : String) (v : α) (m : List (String × α)) :
    pyLookup (dictInsert k v m) k' = if k' = k then some v else pyLookup m k' := by
  induction m with
  | nil =>
    by_cases h : k' = k
    · simp [dictInsert, pyLookup, h]
    · have h' : ¬ k = k' := fun hh => h hh.symm
      simp [dictInsert, pyLookup, h, h']
  | cons q t ih =>
    obtain ⟨k₀, v₀⟩ := q
    by_cases h0 : k₀ = k
    · subst h0
      by_cases h1 : k' = k₀
      · simp [dictInsert, pyLookup, h1]
      · have h1' : ¬ k₀ = k' := fun hh => h1 hh.symm
        simp [dictInsert, pyLookup, h1, h1']
    · by_cases h1 : k₀ = k'
      · have h2 : ¬ k' = k := fun h => h0 (h1.trans h)
        simp [dictInsert, pyLookup, h0, h1, h2]
      · simp [dictInsert, pyLookup, h0, h1, ih]

theorem foldl_dictInsert_lookup_notmem {α : Type} (f : ProfileCfg → α) (ps : List ProfileCfg)
    (acc : List (String × α)) (k : String) (hk : k ∉ ps.map ProfileCfg.name) :
    pyLookup (ps.foldl (fun out p => dictInsert p.name (f p) out) acc) k = pyLookup acc k := by
  induction ps generalizing acc with
  | nil => rfl
  | cons q ps ih =>
    simp only [List.map_cons, List.mem_cons] at hk
    push_neg at hk
    simp only [List.foldl_cons]
    rw [ih _ hk.2, dictInsert_lookup, if_neg hk.1]

theorem foldl_dictInsert_lookup_mem {α : Type} (f : ProfileCfg → α) (ps : List ProfileCfg)
    (acc : List (String × α)) (p : ProfileCfg) (hp : p ∈ ps)
    (hnd : (ps.map ProfileCfg.name).Nodup) :
    pyLookup (ps.foldl (fun out q => dictInsert q.name (f q) out) acc) p.name = some (f p) := by
  induction ps generalizing acc with
  | nil => simp at hp
  | cons q ps ih =>
    simp only [List.foldl_cons]
    rcases List.mem_cons.mp hp with heq | hp'
    · subst heq
      have hq : p.name ∉ ps.map ProfileCfg.name := by
        have := hnd
        simp only [List.map_cons, List.nodup_cons] at this
        exact this.1
      rw [foldl_dictInsert_lookup_notmem f ps _ p.name hq, dictInsert_lookup, if_pos rfl]
    · have hnd' : (ps.map ProfileCfg.name).Nodup := by
        simp only [List.map_cons, List.nodup_cons] at hnd
        exact hnd.2
      exact ih _ hp' hnd'

theorem save_profiles_state_lookup (today_pl today_str : String) (all_listings : List Listing)
    (profiles : List ProfileCfg) (price_history : List (String × PHEntry))
    (prev_data : List (String × ProfileEntry)) (p : ProfileCfg) (hp : p ∈ profiles)
    (hnd : (profiles.map ProfileCfg.name).Nodup) :
    pyLookup (save_profiles_state today_pl today_str all_listings profiles price_history prev_data)
        p.name = some (profileEntryFor today_pl today_str all_listings prev_data p) :=
  foldl_dictInsert_lookup_mem _ profiles [] p hp hnd

/-- C1.  For every configured profile, `save_profiles_state` classifies
listings by set difference on ids: with `P` the previous `current[]` ids and
`C` the current scrape's ids, every current listing whose id is not in `P`
gets status `"new"`, every other one gets `"existing"`, and `gone[]` contains
exactly the entries of the previous `current[]` whose id is in `P` but not
in `C`. -/
theorem save_profiles_state_classification (today_pl today_str : String)
    (all_listings : List Listing) (profiles : List ProfileCfg)
    (price_history : List (String × PHEntry)) (prev_data : List (String × ProfileEntry))
    (p : ProfileCfg) (hp : p ∈ profiles) (hnd : (profiles.map ProfileCfg.name).Nodup) :
    ∃ e, pyLookup (save_profiles_state today_pl today_str all_listings profiles price_history
        prev_data) p.name = some e ∧
      e.current.map CurrEntry.id = (profListings all_listings p.name).map Listing.id ∧
      (∀ c ∈ e.current,
        (c.id ∉ (prevCurrOf prev_data p.name).map CurrEntry.id → c.status = "new") ∧
        (c.id ∈ (prevCurrOf prev_data p.name).map CurrEntry.id → c.status = "existing")) ∧
      e.gone = ((prevCurrOf prev_data p.name).filter (fun pl =>
          decide (pl.id ∈ (prevCurrOf prev_data p.name).map CurrEntry.id ∧
            pl.id ∉ (profListings all_listings p.name).map Listing.id))).map
        (mkGoneEntry today_pl) := by
  refine ⟨profileEntryFor today_pl today_str all_listings prev_data p,
    save_profiles_state_lookup _ _ _ _ _ _ p hp hnd, ?_, ?_, ?_⟩
  · simp only [profileEntryFor, List.map_map]
    rfl
  · intro c hc
    simp only [profileEntryFor, prevCurrOf] at hc
    rcases List.mem_map.mp hc with ⟨l, hl, hcl⟩
    constructor
    · intro hnot
      rw [← hcl] at hnot ⊢
      simp only [mkCurrEntry_id] at hnot
      rw [mkCurrEntry_status, if_pos]
      refine Finset.mem_sdiff.mpr ⟨?_, ?_⟩
      · exact List.mem_toFinset.mpr (List.mem_map_of_mem Listing.id hl)
      · rw [prevIdsOf, List.mem_toFinset]
        exact hnot
    · intro hmem
      rw [← hcl] at hmem ⊢
      simp only [mkCurrEntry_id] at hmem
      rw [mkCurrEntry_status, if_neg]
      intro hsd
      exact (Finset.mem_sdiff.mp hsd).2 (by rw [prevIdsOf, List.mem_toFinset]; exact hmem)
  · simp only [profileEntryFor, prevCurrOf]
    congr 1
    apply List.filter_congr
    intro pl hpl
    apply decide_eq_decide.mpr
    rw [Finset.mem_sdiff, prevIdsOf, currIdsOf, List.mem_toFinset, List.mem_toFinset]
    constructor
    · rintro ⟨h1, h2⟩
      exact ⟨h1, h2⟩
    · rintro ⟨h1, h2⟩
      exact ⟨h1, h2⟩

theorem getLast?_drop {α : Type} (l : List α) (n : Nat) (h : n < l.length) :
    (l.drop n).getLast? = l.getLast? := by
  induction l generalizing n with
  | nil => simp at h
  | cons a t ih =>
    cases n with
    | zero => rfl
    | succ n =>
      have ht : n < t.length := by simpa using h
      rw [List.drop_succ_cons, ih n ht]
      cases t with
      | nil => simp at ht
      | cons b t' => simp [List.getLast?_cons_cons]

theorem drop_append_le {α : Type} (l₁ l₂ : List α) (n : Nat) (h : n ≤ l₁.length) :
    (l₁ ++ l₂).drop n = l₁.drop n ++ l₂ := by
  induction l₁ generalizing n with
  | nil => simp [Nat.le_zero.mp h]
  | cons a t ih =>
    cases n with
    | zero => simp
    | succ n =>
      simp only [List.cons_append, List.drop_succ_cons]
      exact ih n (by simpa using h)

/-- The `"17 lut 2026"`-dated aggregate entry appended for today. -/
def todayHEntry (today_str : String) (all_listings : List Listing)
    (prev_data : List (String × ProfileEntry)) (name : String) : HEntry :=
  { date := today_str, total := (profListings all_listings name).length,
    newCount := (currIdsOf all_listings name \ prevIdsOf prev_data name).card,
    goneCount := (prevIdsOf prev_data name \ currIdsOf all_listings name).card }

theorem profileEntryFor_history (today_pl today_str : String) (all_listings : List Listing)
    (prev_data : List (String × ProfileEntry)) (p : ProfileCfg) :
    (profileEntryFor today_pl today_str all_listings prev_data p).history =
      (((((pyLookup prev_data p.name).getD emptyProfileEntry).history.filter
            (fun h => h.date != today_str)) ++ [todayHEntry today_str all_listings prev_data p.name]).drop
        ((((pyLookup prev_data p.name).getD emptyProfileEntry).history.filter
            (fun h => h.date != today_str)).length + 1 - 30)) := by
  simp only [profileEntryFor, todayHEntry, List.length_map, List.length_append,
    List.length_singleton]

/-- C3.  For every configured profile, the written history has at most 30
entries, at most one entry dated with today's label (a pre-existing entry
for today is replaced, not duplicated), and its last entry carries today's
label, `total = |current scrape|`, `newCount = |C \ P|` and
`goneCount = |P \ C|`. -/
theorem save_profiles_state_history (today_pl today_str : String)
    (all_listings : List Listing) (profiles : List ProfileCfg)
    (price_history : List (String × PHEntry)) (prev_data : List (String × ProfileEntry))
    (p : ProfileCfg) (hp : p ∈ profiles) (hnd : (profiles.map ProfileCfg.name).Nodup) :
    ∃ e, pyLookup (save_profiles_state today_pl today_str all_listings profiles price_history
        prev_data) p.name = some e ∧
      e.history.length ≤ 30 ∧
      e.history.countP (fun h => h.date == today_str) ≤ 1 ∧
      e.history.getLast? = some (todayHEntry today_str all_listings prev_data p.name) := by
  refine ⟨profileEntryFor today_pl today_str all_listings prev_data p,
    save_profiles_state_lookup _ _ _ _ _ _ p hp hnd, ?_, ?_, ?_⟩ <;>
    rw [profileEntryFor_history]
  · rw [List.length_drop]
    simp only [List.length_append, List.length_singleton]
    omega
  · have hsub := List.drop_sublist
      ((((pyLookup prev_data p.name).getD emptyProfileEntry).history.filter
          (fun h => h.date != today_str)).length + 1 - 30)
      ((((pyLookup prev_data p.name).getD emptyProfileEntry).history.filter
          (fun h => h.date != today_str)) ++ [todayHEntry today_str all_listings prev_data p.name])
    refine Nat.le_trans (hsub.countP_le _) ?_
    rw [List.countP_append]
    have hzero : (((pyLookup prev_data p.name).getD emptyProfileEntry).history.filter
        (fun h => h.date != today_str)).countP (fun h => h.date == today_str) = 0 := by
      rw [List.countP_eq_zero]
      intro a ha
      have := (List.mem_filter.mp ha).2
      simp only [bne_iff_ne, ne_eq] at this
      simp [this]
    rw [hzero]
    simp [List.countP_cons, todayHEntry]
  · have hlt : (((pyLookup prev_data p.name).getD emptyProfileEntry).history.filter
        (fun h => h.date != today_str)).length + 1 - 30 <
      ((((pyLookup prev_data p.name).getD emptyProfileEntry).history.filter
          (fun h => h.date != today_str)) ++
        [todayHEntry today_str all_listings prev_data p.name]).length := by
      simp only [List.length_append, List.length_singleton]
      omega
    rw [getLast?_drop _ _ hlt, List.getLast?_concat]

/-- C2 counterexample state: a profile recorded in the previous
`profiles_state.json` that is not among the configured profiles. -/
def ghostEntry : ProfileEntry := ⟨"u", [], [], [⟨"1 sty 2026", 5, 1, 0⟩]⟩

def ghostPrev : List (String × ProfileEntry) := [("ghost", ghostEntry)]

/-- C2 counterexample.  `"ghost"` is a key of the previous state, yet after
the write the state contains no entry for it: `save_profiles_state` iterates
only over the configured profiles, dropping every other previously recorded
profile. -/
theorem save_profiles_state_counterexample :
    "ghost" ∈ ghostPrev.map Prod.fst ∧
    pyLookup (save_profiles_state "17 lut" "17 lut 2026" [] [] [] ghostPrev) "ghost" = none := by
  constructor
  · decide
  · rfl

/-- C2 (amended).  For every profile name that is a key of the previous
state and is still configured, the written state contains an entry for it
whose history is exactly the previous non-today history followed by today's
entry, truncated to the most recent 30 entries (the drop index is pinned to
`length + 1 - 30`); in particular, when the previous non-today history has
at most 29 entries it is preserved in full, in order. -/
theorem save_profiles_state_keeps_configured (today_pl today_str : String)
    (all_listings : List Listing) (profiles : List ProfileCfg)
    (price_history : List (String × PHEntry)) (prev_data : List (String × ProfileEntry))
    (p : ProfileCfg) (hp : p ∈ profiles) (hnd : (profiles.map ProfileCfg.name).Nodup)
    (hprev : p.name ∈ prev_data.map Prod.fst) :
    ∃ e, pyLookup (save_profiles_state today_pl today_str all_listings profiles price_history
        prev_data) p.name = some e ∧
      e.history =
        ((((pyLookup prev_data p.name).getD emptyProfileEntry).history.filter
            (fun h => h.date != today_str)).drop
          ((((pyLookup prev_data p.name).getD emptyProfileEntry).history.filter
              (fun h => h.date != today_str)).length + 1 - 30)) ++
          [todayHEntry today_str all_listings prev_data p.name] ∧
      e.history.length ≤ 30 ∧
      ((((pyLookup prev_data p.name).getD emptyProfileEntry).history.filter
          (fun h => h.date != today_str)).length ≤ 29 →
        e.history =
          (((pyLookup prev_data p.name).getD emptyProfileEntry).history.filter
            (fun h => h.date != today_str)) ++
            [todayHEntry today_str all_listings prev_data p.name]) := by
  set F := (((pyLookup prev_data p.name).getD emptyProfileEntry).history.filter
    (fun h => h.date != today_str)) with hF
  have hmain : (profileEntryFor today_pl today_str all_listings prev_data p).history =
      F.drop (F.length + 1 - 30) ++ [todayHEntry today_str all_listings prev_data p.name] := by
    rw [profileEntryFor_history, ← hF]
    apply drop_append_le
    omega
  refine ⟨profileEntryFor today_pl today_str all_listings prev_data p,
    save_profiles_state_lookup _ _ _ _ _ _ p hp hnd, hmain, ?_, ?_⟩
  · rw [hmain]
    simp only [List.length_append, List.length_singleton, List.length_drop]
    omega
  · intro hle
    have hidx : F.length + 1 - 30 = 0 := by omega
    rw [hmain, hidx, List.drop_zero]

/-- Concrete scenario for the `save_profiles_state` witnesses: one configured
profile, one freshly scraped listing `a1`, one previously recorded listing
`a0`. -/
def wProfile : ProfileCfg := ⟨"art", "http://x"⟩

def wScan : Listing := ⟨"a1", "art", "Pokój nowy", 800, "u1", none, none⟩

def wPrevCurrEntry : CurrEntry := ⟨"a0", "Stary pokój", 700, "u0", "existing", "", none, "16 lut", "art"⟩

def wPrevProfileEntry : ProfileEntry := ⟨"http://x", [wPrevCurrEntry], [], [⟨"16 lut 2026", 1, 1, 0⟩]⟩

def wPrevState : List (String × ProfileEntry) := [("art", wPrevProfileEntry)]

/-- Witness for C1 at the concrete scenario. -/
theorem save_profiles_state_classification_witness :
    wProfile ∈ [wProfile] ∧ (([wProfile].map ProfileCfg.name).Nodup) ∧
    ∃ e, pyLookup (save_profiles_state "17 lut" "17 lut 2026" [wScan] [wProfile] [] wPrevState)
        wProfile.name = some e ∧
      e.current.map CurrEntry.id = (profListings [wScan] wProfile.name).map Listing.id ∧
      (∀ c ∈ e.current,
        (c.id ∉ (prevCurrOf wPrevState wProfile.name).map CurrEntry.id → c.status = "new") ∧
        (c.id ∈ (prevCurrOf wPrevState wProfile.name).map CurrEntry.id → c.status = "existing")) ∧
      e.gone = ((prevCurrOf wPrevState wProfile.name).filter (fun pl =>
          decide (pl.id ∈ (prevCurrOf wPrevState wProfile.name).map CurrEntry.id ∧
            pl.id ∉ (profListings [wScan] wProfile.name).map Listing.id))).map
        (mkGoneEntry "17 lut") :=
  ⟨by decide, by decide,
    save_profiles_state_classification "17 lut" "17 lut 2026" [wScan] [wProfile] [] wPrevState
      wProfile (by decide) (by decide)⟩

/-- Witness for the amended C2 at the concrete scenario (one previous
non-today history entry, so the under-cap branch preserves it in full). -/
theorem save_profiles_state_keeps_configured_witness :
    wProfile.name ∈ wPrevState.map Prod.fst ∧
    ∃ e, pyLookup (save_profiles_state "17 lut" "17 lut 2026" [wScan] [wProfile] [] wPrevState)
        wProfile.name = some e ∧
      e.history =
        ((((pyLookup wPrevState wProfile.name).getD emptyProfileEntry).history.filter
            (fun h => h.date != "17 lut 2026")).drop
          ((((pyLookup wPrevState wProfile.name).getD emptyProfileEntry).history.filter
              (fun h => h.date != "17 lut 2026")).length + 1 - 30)) ++
          [todayHEntry "17 lut 2026" [wScan] wPrevState wProfile.name] ∧
      e.history.length ≤ 30 ∧
      ((((pyLookup wPrevState wProfile.name).getD emptyProfileEntry).history.filter
          (fun h => h.date != "17 lut 2026")).length ≤ 29 →
        e.history =
          (((pyLookup wPrevState wProfile.name).getD emptyProfileEntry).history.filter
            (fun h => h.date != "17 lut 2026")) ++
            [todayHEntry "17 lut 2026" [wScan] wPrevState wProfile.name]) :=
  ⟨by decide,
    save_profiles_state_keeps_configured "17 lut" "17 lut 2026" [wScan] [wProfile] [] wPrevState
      wProfile (by decide) (by decide) (by decide)⟩

/-- Witness for C3 at the concrete scenario. -/
theorem save_profiles_state_history_witness :
    wProfile ∈ [wProfile] ∧
    ∃ e, pyLookup (save_profiles_state "17 lut" "17 lut 2026" [wScan] [wProfile] [] wPrevState)
        wProfile.name = some e ∧
      e.history.length ≤ 30 ∧
      e.history.countP (fun h => h.date == "17 lut 2026") ≤ 1 ∧
      e.history.getLast? = some (todayHEntry "17 lut 2026" [wScan] wPrevState wProfile.name) :=
  ⟨by decide,
    save_profiles_state_history "17 lut" "17 lut 2026" [wScan] [wProfile] [] wPrevState
      wProfile (by decide) (by decide)⟩

/-! ## `update_price_history` (olx_monitor.py lines 305-337)

The loop body per listing: create the record if absent (with empty
`prices`), else update an empty `created` from the listing; then overwrite
the price of the first of today's price points, or append a new point when
the scraped price is positive. -/

/-- `l["created"] or ""`. -/
def cstr (l : Listing) : String := l.created.getD ""

/-- Lines 322-323: set `created` when previously empty and the listing
carries one. -/
def createdTouch (c : String) (e : PHEntry) : PHEntry :=
  if e.created = "" ∧ c ≠ "" then { e with created := c } else e

/-- Mutation of the first price point dated today
(`next((e for e in prices if e["date"] == today), None)` then
`entry["price"] = l["price"]`). -/
def overwriteFirst (today : String) (p : Nat) : List PricePoint → List PricePoint
  | [] => []
  | q :: qs => if q.date == today then { q with price := p } :: qs else q :: overwriteFirst today p qs

/-- Lines 325-330: overwrite today's entry if present, else append one when
the price is positive. -/
def pricesTouch (today : String) (p : Nat) (e : PHEntry) : PHEntry :=
  if e.prices.any (fun q => q.date == today) then
    { e with prices := overwriteFirst today p e.prices }
  else if 0 < p then { e with prices := e.prices ++ [⟨today, p⟩] } else e

/-- One iteration of the `for l in listings` loop (lines 316-330). -/
def phStep (today : String) (h : List (String × PHEntry)) (l : Listing) :
    List (String × PHEntry) :=
  match pyLookup h l.id with
  | none => h ++ [(l.id, pricesTouch today l.price ⟨l.title, l.profile, cstr l, []⟩)]
  | some _ => modifyFirst l.id (fun e => pricesTouch today l.price (createdTouch (cstr l) e)) h

/-- `update_price_history` as a function from the previously persisted
`price_history.json` to the newly written one. -/
def update_price_history (today : String) (listings : List Listing)
    (history : List (String × PHEntry)) : List (String × PHEntry) :=
  listings.foldl (phStep today) history

/-- The effect of the loop body on a single id's record. -/
def entryStep (today : String) (o : Option PHEntry) (l : Listing) : PHEntry :=
  match o with
  | none => pricesTouch today l.price ⟨l.title, l.profile, cstr l, []⟩
  | some e => pricesTouch today l.price (createdTouch (cstr l) e)

/-- Folding the loop body over the listings that share one id. -/
def entryFold (today : String) (o : Option PHEntry) (M : List Listing) : Option PHEntry :=
  M.foldl (fun acc l => some (entryStep today acc l)) o

/-- Same fold, started from a present record. -/
def entryFoldE (today : String) (e : PHEntry) (M : List Listing) : PHEntry :=
  M.foldl (fun acc l => entryStep today (some acc) l) e

/-- The `prices` array recorded for an id (empty when the id is absent). -/
def pricesOf (h : List (String × PHEntry)) (k : String) : List PricePoint :=
  match pyLookup h k with
  | some e => e.prices
  | none => []

theorem entryFold_some_eq (today : String) (e : PHEntry) (M : List Listing) :
    entryFold today (some e) M = some (entryFoldE today e M) := by
  induction M generalizing e with
  | nil => rfl
  | cons l M ih => exact ih (entryStep today (some e) l)

theorem entryFold_cons (today : String) (o : Option PHEntry) (l : Listing) (M : List Listing) :
    entryFold today o (l :: M) = entryFold today (some (entryStep today o l)) M := rfl

theorem phStep_lookup (today : String) (h : List (String × PHEntry)) (l : Listing) (k : String) :
    pyLookup (phStep today h l) k =
      if k = l.id then some (entryStep today (pyLookup h l.id) l) else pyLookup h k := by
  unfold phStep
  cases hl : pyLookup h l.id with
  | none =>
    by_cases hk : k = l.id
    · subst hk
      rw [pyLookup_append_right _ _ _ hl, hl]
      simp [pyLookup, entryStep]
    · cases hhk : pyLookup h k with
      | some v =>
        rw [pyLookup_append_left _ _ _ hhk]
        simp [hk, hhk]
      | none =>
        rw [pyLookup_append_right _ _ _ hhk]
        have hk' : ¬ l.id = k := fun hh => hk hh.symm
        simp [pyLookup, hk, hk', hhk]
  | some e =>
    rw [pyLookup_modifyFirst]
    by_cases hk : k = l.id <;> simp [hk, hl, entryStep]

theorem update_price_history_lookup (today : String) (L : List Listing)
    (h : List (String × PHEntry)) (k : String) :
    pyLookup (update_price_history today L h) k =
      entryFold today (pyLookup h k) (L.filter (fun l => l.id == k)) := by
  induction L generalizing h with
  | nil => rfl
  | cons l L ih =>
    show pyLookup (L.foldl (phStep today) (phStep today h l)) k = _
    rw [show L.foldl (phStep today) (phStep today h l) =
        update_price_history today L (phStep today h l) from rfl, ih, phStep_lookup]
    by_cases hk : k = l.id
    · subst hk
      rw [if_pos rfl, List.filter_cons_of_pos (by simp), entryFold_cons]
    · rw [if_neg hk, List.filter_cons_of_neg (by simp; exact fun hh => hk hh.symm)]

@[simp] theorem createdTouch_prices (c : String) (e : PHEntry) :
    (createdTouch c e).prices = e.prices := by
  unfold createdTouch
  split <;> rfl

theorem createdTouch_of_ne (c : String) (e : PHEntry) (h : e.created ≠ "") :
    createdTouch c e = e := by
  unfold createdTouch
  rw [if_neg]
  intro hx
  exact h hx.1

@[simp] theorem pricesTouch_created (today : String) (p : Nat) (e : PHEntry) :
    (pricesTouch today p e).created = e.created := by
  unfold pricesTouch
  split
  · rfl
  · split <;> rfl

theorem entryStep_some (today : String) (l : Listing) (e : PHEntry) :
    entryStep today (some e) l = pricesTouch today l.price (createdTouch (cstr l) e) := rfl

theorem overwriteFirst_any (today : String) (p : Nat) (ps : List PricePoint) :
    (overwriteFirst today p ps).any (fun q => q.date == today) =
      ps.any (fun q => q.date == today) := by
  induction ps with
  | nil => rfl
  | cons q qs ih =>
    by_cases h : (q.date == today) = true
    · simp [overwriteFirst, h]
    · simp [overwriteFirst, h, ih]

theorem overwriteFirst_filter_ne (today : String) (p : Nat) (ps : List PricePoint) :
    (overwriteFirst today p ps).filter (fun q => q.date != today) =
      ps.filter (fun q => q.date != today) := by
  simp only [bne]
  induction ps with
  | nil => rfl
  | cons q qs ih =>
    by_cases h : (q.date == today) = true
    · simp [overwriteFirst, h]
    · simp [overwriteFirst, h, ih]

/-- The `prices` array of an optional record. -/
def optPrices (o : Option PHEntry) : List PricePoint :=
  match o with
  | some e => e.prices
  | none => []

theorem pricesOf_eq (h : List (String × PHEntry)) (k : String) :
    pricesOf h k = optPrices (pyLookup h k) := rfl

theorem entryStep_filter_ne (today : String) (l : Listing) (o : Option PHEntry) :
    (entryStep today o l).prices.filter (fun q => q.date != today) =
      (optPrices o).filter (fun q => q.date != today) := by
  cases o with
  | none =>
    show (pricesTouch today l.price ⟨l.title, l.profile, cstr l, []⟩).prices.filter
        (fun q => q.date != today) =
      List.filter (fun q => q.date != today) []
    by_cases hp : 0 < l.price
    · simp [pricesTouch, hp, bne]
    · simp [pricesTouch, hp]
  | some e =>
    rw [entryStep_some]
    unfold pricesTouch
    rw [createdTouch_prices]
    by_cases ht : e.prices.any (fun q => q.date == today) = true
    · rw [if_pos ht]
      simpa [optPrices] using overwriteFirst_filter_ne today l.price e.prices
    · rw [if_neg ht]
      by_cases hp : 0 < l.price
      · rw [if_pos hp]
        simp [optPrices, List.filter_append, bne]
      · rw [if_neg hp]
        simp [optPrices]

theorem entryFold_filter_ne (today : String) (M : List Listing) (o : Option PHEntry) :
    (optPrices (entryFold today o M)).filter (fun q => q.date != today) =
      (optPrices o).filter (fun q => q.date != today) := by
  induction M generalizing o with
  | nil => rfl
  | cons l M ih =>
    rw [entryFold_cons, ih]
    exact entryStep_filter_ne today l o

/-! Entry-level idempotence machinery. -/

/-- Does the record already carry a price point dated today? -/
def hasT (today : String) (e : PHEntry) : Bool :=
  e.prices.any (fun q => q.date == today)

theorem entryFoldE_cons (today : String) (e : PHEntry) (l : Listing) (M : List Listing) :
    entryFoldE today e (l :: M) = entryFoldE today (entryStep today (some e) l) M := rfl

theorem entryStep_some_created_ne (today : String) (l : Listing) (e : PHEntry)
    (h : e.created ≠ "") : (entryStep today (some e) l).created = e.created := by
  rw [entryStep_some, pricesTouch_created, createdTouch_of_ne _ _ h]

theorem entryStep_created_eq_empty (today : String) (l : Listing) (e : PHEntry)
    (h : (entryStep today (some e) l).created = "") : e.created = "" ∧ cstr l = "" := by
  rw [entryStep_some, pricesTouch_created] at h
  unfold createdTouch at h
  by_cases hc : e.created = "" ∧ cstr l ≠ ""
  · rw [if_pos hc] at h
    exact absurd h hc.2
  · rw [if_neg hc] at h
    refine ⟨h, ?_⟩
    by_contra hne
    exact hc ⟨h, hne⟩

theorem entryFoldE_created_empty (today : String) (M : List Listing) (e : PHEntry)
    (h : (entryFoldE today e M).created = "") : e.created = "" ∧ ∀ l ∈ M, cstr l = "" := by
  induction M generalizing e with
  | nil => exact ⟨h, by simp⟩
  | cons l M ih =>
    rw [entryFoldE_cons] at h
    obtain ⟨h1, h2⟩ := ih _ h
    obtain ⟨h3, h4⟩ := entryStep_created_eq_empty today l e h1
    refine ⟨h3, ?_⟩
    intro l' hl'
    rcases List.mem_cons.mp hl' with heq | hm
    · rw [heq]; exact h4
    · exact h2 _ hm

theorem entryStep_hasT_mono (today : String) (l : Listing) (e : PHEntry)
    (h : hasT today e = true) : hasT today (entryStep today (some e) l) = true := by
  rw [entryStep_some]
  unfold hasT pricesTouch
  simp only [createdTouch_prices]
  unfold hasT at h
  rw [if_pos h]
  simpa [overwriteFirst_any] using h

theorem entryFoldE_hasT_mono (today : String) (M : List Listing) (e : PHEntry)
    (h : hasT today e = true) : hasT today (entryFoldE today e M) = true := by
  induction M generalizing e with
  | nil => exact h
  | cons l M ih =>
    rw [entryFoldE_cons]
    exact ih _ (entryStep_hasT_mono today l e h)

theorem entryStep_hasT_false (today : String) (l : Listing) (e : PHEntry)
    (h : hasT today (entryStep today (some e) l) = false) :
    hasT today e = false ∧ l.price = 0 := by
  by_cases ht : hasT today e = true
  · rw [entryStep_hasT_mono today l e ht] at h
    cases h
  · have ht' : hasT today e = false := by
      revert ht; cases hasT today e <;> simp
    refine ⟨ht', ?_⟩
    by_contra hp0
    have hp : 0 < l.price := Nat.pos_of_ne_zero hp0
    have hT : hasT today (entryStep today (some e) l) = true := by
      rw [entryStep_some]
      unfold hasT pricesTouch
      simp only [createdTouch_prices]
      unfold hasT at ht'
      rw [if_neg (by simp [ht']), if_pos hp]
      simp
    rw [hT] at h
    cases h

theorem entryFoldE_hasT_false (today : String) (M : List Listing) (e : PHEntry)
    (h : hasT today (entryFoldE today e M) = false) :
    hasT today e = false ∧ ∀ l ∈ M, l.price = 0 := by
  induction M generalizing e with
  | nil => exact ⟨h, by simp⟩
  | cons l M ih =>
    rw [entryFoldE_cons] at h
    obtain ⟨h1, h2⟩ := ih _ h
    obtain ⟨h3, h4⟩ := entryStep_hasT_false today l e h1
    refine ⟨h3, ?_⟩
    intro l' hl'
    rcases List.mem_cons.mp hl' with heq | hm
    · rw [heq]; exact h4
    · exact h2 _ hm

theorem find?_today_cons_pos (today : String) (r : PricePoint) (rs : List PricePoint)
    (h : (r.date == today) = true) :
    (r :: rs).find? (fun x => x.date == today) = some r := by
  simp [List.find?, h]

theorem find?_today_cons_neg (today : String) (r : PricePoint) (rs : List PricePoint)
    (h : (r.date == today) = false) :
    (r :: rs).find? (fun x => x.date == today) = rs.find? (fun x => x.date == today) := by
  simp [List.find?, h]

theorem find?_today_some (today : String) (ps : List PricePoint) (q : PricePoint)
    (h : ps.find? (fun x => x.date == today) = some q) : (q.date == today) = true := by
  induction ps with
  | nil => simp [List.find?] at h
  | cons r rs ih =>
    by_cases hr : (r.date == today) = true
    · rw [find?_today_cons_pos today r rs hr] at h
      rw [← Option.some.inj h]
      exact hr
    · have hr' : (r.date == today) = false := by
        revert hr; cases r.date == today <;> simp
      rw [find?_today_cons_neg today r rs hr'] at h
      exact ih h

theorem find?_today_eq_none_any (today : String) (ps : List PricePoint)
    (h : ps.find? (fun x => x.date == today) = none) :
    ps.any (fun q => q.date == today) = false := by
  induction ps with
  | nil => rfl
  | cons r rs ih =>
    by_cases hr : (r.date == today) = true
    · rw [find?_today_cons_pos today r rs hr] at h
      cases h
    · have hr' : (r.date == today) = false := by
        revert hr; cases r.date == today <;> simp
      rw [find?_today_cons_neg today r rs hr'] at h
      simp [hr', ih h]

theorem any_today_eq_false_find? (today : String) (ps : List PricePoint)
    (h : ps.any (fun q => q.date == today) = false) :
    ps.find? (fun x => x.date == today) = none := by
  induction ps with
  | nil => rfl
  | cons r rs ih =>
    simp only [List.any_cons, Bool.or_eq_false_iff] at h
    rw [find?_today_cons_neg today r rs h.1]
    exact ih h.2

theorem overwriteFirst_of_find? (today : String) (p : Nat) (ps : List PricePoint)
    (q : PricePoint) (hf : ps.find? (fun r => r.date == today) = some q) (hp : q.price = p) :
    overwriteFirst today p ps = ps := by
  induction ps with
  | nil => simp [List.find?] at hf
  | cons r rs ih =>
    by_cases h : (r.date == today) = true
    · rw [find?_today_cons_pos today r rs h] at hf
      have hr : r = q := Option.some.inj hf
      subst hr
      unfold overwriteFirst
      rw [if_pos h, ← hp]
    · have h' : (r.date == today) = false := by
        revert h; cases r.date == today <;> simp
      rw [find?_today_cons_neg today r rs h'] at hf
      unfold overwriteFirst
      rw [if_neg h, ih hf]

theorem overwriteFirst_comp (today : String) (p p' : Nat) (ps : List PricePoint) :
    overwriteFirst today p (overwriteFirst today p' ps) = overwriteFirst today p ps := by
  induction ps with
  | nil => rfl
  | cons r rs ih =>
    by_cases h : (r.date == today) = true
    · simp [overwriteFirst, h]
    · simp [overwriteFirst, h, ih]

theorem overwriteFirst_find? (today : String) (p : Nat) (ps : List PricePoint) :
    (overwriteFirst today p ps).find? (fun r => r.date == today) =
      (ps.find? (fun r => r.date == today)).map (fun q => { q with price := p }) := by
  induction ps with
  | nil => rfl
  | cons r rs ih =>
    by_cases h : (r.date == today) = true
    · rw [find?_today_cons_pos today r rs h]
      unfold overwriteFirst
      rw [if_pos h, find?_today_cons_pos today _ rs (by simpa using h)]
      rfl
    · have h' : (r.date == today) = false := by
        revert h; cases r.date == today <;> simp
      rw [find?_today_cons_neg today r rs h']
      unfold overwriteFirst
      rw [if_neg h, find?_today_cons_neg today r _ h', ih]

theorem find?_append_today (today : String) (p : Nat) (ps : List PricePoint)
    (h : ps.find? (fun r => r.date == today) = none) :
    (ps ++ [(⟨today, p⟩ : PricePoint)]).find? (fun r => r.date == today) =
      some ⟨today, p⟩ := by
  induction ps with
  | nil => simp [List.find?]
  | cons r rs ih =>
    by_cases hr : (r.date == today) = true
    · rw [find?_today_cons_pos today r rs hr] at h
      cases h
    · have hr' : (r.date == today) = false := by
        revert hr; cases r.date == today <;> simp
      rw [find?_today_cons_neg today r rs hr'] at h
      rw [List.cons_append, find?_today_cons_neg today r _ hr']
      exact ih h

theorem entryStep_find? (today : String) (l : Listing) (o : Option PHEntry)
    (h : hasT today (entryStep today o l) = true) :
    (entryStep today o l).prices.find? (fun r => r.date == today) =
      some ⟨today, l.price⟩ := by
  cases o with
  | none =>
    by_cases hp : 0 < l.price
    · show (pricesTouch today l.price ⟨l.title, l.profile, cstr l, []⟩).prices.find? _ = _
      simp [pricesTouch, hp, List.find?]
    · exfalso
      have : entryStep today none l = ⟨l.title, l.profile, cstr l, []⟩ := by
        show pricesTouch today l.price ⟨l.title, l.profile, cstr l, []⟩ = _
        simp [pricesTouch, hp]
      rw [this] at h
      simp [hasT] at h
  | some e =>
    rw [entryStep_some] at h ⊢
    unfold pricesTouch at h ⊢
    simp only [createdTouch_prices] at h ⊢
    by_cases ht : e.prices.any (fun q => q.date == today) = true
    · rw [if_pos ht] at h ⊢
      simp only at h ⊢
      rw [overwriteFirst_find?]
      cases hfind : e.prices.find? (fun r => r.date == today) with
      | none =>
        rw [find?_today_eq_none_any today e.prices hfind] at ht
        cases ht
      | some q =>
        have hq : (q.date == today) = true := find?_today_some today e.prices q hfind
        have hqd : q.date = today := by simpa using hq
        simp [hqd]
    · rw [if_neg ht] at h ⊢
      by_cases hp : 0 < l.price
      · rw [if_pos hp] at h ⊢
        simp only at h ⊢
        apply find?_append_today
        apply any_today_eq_false_find?
        revert ht; cases e.prices.any (fun q => q.date == today) <;> simp
      · rw [if_neg hp] at h ⊢
        unfold hasT at h
        exact absurd h (by simp [ht])

theorem entryFoldE_find?_last (today : String) (x : PHEntry) (l : Listing) (M : List Listing)
    (h : hasT today (entryFoldE today x (l :: M)) = true) :
    ∃ z, (l :: M).getLast? = some z ∧
      (entryFoldE today x (l :: M)).prices.find? (fun r => r.date == today) =
        some ⟨today, z.price⟩ := by
  induction M generalizing x l with
  | nil =>
    refine ⟨l, rfl, ?_⟩
    exact entryStep_find? today l (some x) h
  | cons l' M ih =>
    rw [entryFoldE_cons] at h ⊢
    obtain ⟨z, hz1, hz2⟩ := ih (entryStep today (some x) l) l' h
    exact ⟨z, by rw [List.getLast?_cons_cons]; exact hz1, hz2⟩

theorem entryFold_find?_last (today : String) (o : Option PHEntry) (l : Listing)
    (M : List Listing) (e' : PHEntry) (he : entryFold today o (l :: M) = some e')
    (h : hasT today e' = true) :
    ∃ z, (l :: M).getLast? = some z ∧
      e'.prices.find? (fun r => r.date == today) = some ⟨today, z.price⟩ := by
  cases M with
  | nil =>
    have heq : entryStep today o l = e' := by
      have : entryFold today o [l] = some (entryStep today o l) := rfl
      rw [this] at he
      exact Option.some.inj he
    refine ⟨l, rfl, ?_⟩
    rw [← heq]
    exact entryStep_find? today l o (by rw [heq]; exact h)
  | cons l' M =>
    have he' : entryFoldE today (entryStep today o l) (l' :: M) = e' := by
      have h1 : entryFold today o (l :: l' :: M) =
          some (entryFoldE today (entryStep today o l) (l' :: M)) := by
        rw [entryFold_cons, entryFold_some_eq]
      rw [h1] at he
      exact Option.some.inj he
    obtain ⟨z, hz1, hz2⟩ := entryFoldE_find?_last today (entryStep today o l) l' M
      (by rw [he']; exact h)
    refine ⟨z, by rw [List.getLast?_cons_cons]; exact hz1, ?_⟩
    rw [← he']
    exact hz2

theorem entryStep_noop (today : String) (l : Listing) (e : PHEntry)
    (hT : hasT today e = false) (hp : l.price = 0) (hc : e.created ≠ "" ∨ cstr l = "") :
    entryStep today (some e) l = e := by
  rw [entryStep_some]
  have h1 : createdTouch (cstr l) e = e := by
    unfold createdTouch
    rw [if_neg]
    rintro ⟨ha, hb⟩
    rcases hc with hc | hc
    · exact hc ha
    · exact hb hc
  rw [h1]
  unfold pricesTouch
  unfold hasT at hT
  rw [if_neg (by simp [hT]), if_neg (by simp [hp])]

theorem entryFoldE_noop (today : String) (x : PHEntry) (M : List Listing)
    (h : ∀ l ∈ M, entryStep today (some x) l = x) : entryFoldE today x M = x := by
  induction M with
  | nil => rfl
  | cons l M ih =>
    rw [entryFoldE_cons, h l (List.mem_cons_self _ _)]
    exact ih (fun l' hl' => h l' (List.mem_cons_of_mem _ hl'))

theorem entryStep_hasT_form (today : String) (l : Listing) (x : PHEntry)
    (hT : hasT today x = true) (hc : x.created ≠ "" ∨ cstr l = "") :
    entryStep today (some x) l = { x with prices := overwriteFirst today l.price x.prices } := by
  rw [entryStep_some]
  have h1 : createdTouch (cstr l) x = x := by
    unfold createdTouch
    rw [if_neg]
    rintro ⟨ha, hb⟩
    rcases hc with hc | hc
    · exact hc ha
    · exact hb hc
  rw [h1]
  unfold pricesTouch
  unfold hasT at hT
  rw [if_pos hT]

theorem entryFoldE_overwrites (today : String) (x : PHEntry) (l : Listing) (M : List Listing)
    (hT : hasT today x = true) (hc : ∀ l' ∈ l :: M, x.created ≠ "" ∨ cstr l' = "") :
    ∃ z, (l :: M).getLast? = some z ∧
      entryFoldE today x (l :: M) = { x with prices := overwriteFirst today z.price x.prices } := by
  induction M generalizing x l with
  | nil =>
    refine ⟨l, rfl, ?_⟩
    rw [entryFoldE_cons]
    show entryStep today (some x) l = _
    exact entryStep_hasT_form today l x hT (hc l (List.mem_cons_self _ _))
  | cons l' M ih =>
    rw [entryFoldE_cons,
      entryStep_hasT_form today l x hT (hc l (List.mem_cons_self _ _))]
    have hT1 : hasT today { x with prices := overwriteFirst today l.price x.prices } = true := by
      show (overwriteFirst today l.price x.prices).any (fun q => q.date == today) = true
      rw [overwriteFirst_any]
      exact hT
    have hc1 : ∀ l'' ∈ l' :: M,
        ({ x with prices := overwriteFirst today l.price x.prices } : PHEntry).created ≠ "" ∨
          cstr l'' = "" := by
      intro l'' h''
      exact hc l'' (List.mem_cons_of_mem _ h'')
    obtain ⟨z, hz1, hz2⟩ := ih _ l' hT1 hc1
    refine ⟨z, by rw [List.getLast?_cons_cons]; exact hz1, ?_⟩
    rw [hz2]
    simp [overwriteFirst_comp]

theorem settled_after (today : String) (o : Option PHEntry) (l : Listing) (M' : List Listing) :
    ∀ l' ∈ l :: M',
      (entryFoldE today (entryStep today o l) M').created ≠ "" ∨ cstr l' = "" := by
  intro l' hl'
  by_cases hcr : (entryFoldE today (entryStep today o l) M').created = ""
  · right
    obtain ⟨h1, h2⟩ := entryFoldE_created_empty today M' _ hcr
    rcases List.mem_cons.mp hl' with heq | hm
    · rw [heq]
      cases o with
      | none =>
        have hcl : (entryStep today none l).created = cstr l := by
          show (pricesTouch today l.price ⟨l.title, l.profile, cstr l, []⟩).created = _
          rw [pricesTouch_created]
        rw [hcl] at h1
        exact h1
      | some e => exact (entryStep_created_eq_empty today l e h1).2
    · exact h2 _ hm
  · left
    exact hcr

theorem entry_replay (today : String) (o : Option PHEntry) (l : Listing) (M' : List Listing) :
    entryFoldE today (entryFoldE today (entryStep today o l) M') (l :: M') =
      entryFoldE today (entryStep today o l) M' := by
  by_cases hT : hasT today (entryFoldE today (entryStep today o l) M') = true
  · obtain ⟨z, hz1, hz2⟩ := entryFoldE_overwrites today
      (entryFoldE today (entryStep today o l) M') l M' hT (settled_after today o l M')
    rw [hz2]
    have hfold : entryFold today o (l :: M') =
        some (entryFoldE today (entryStep today o l) M') := by
      rw [entryFold_cons, entryFold_some_eq]
    obtain ⟨z', hz1', hz2'⟩ := entryFold_find?_last today o l M' _ hfold hT
    have hzz : z' = z := by
      rw [hz1] at hz1'
      exact (Option.some.inj hz1').symm
    rw [hzz] at hz2'
    rw [overwriteFirst_of_find? today z.price _ ⟨today, z.price⟩ hz2' rfl]
  · have hTf : hasT today (entryFoldE today (entryStep today o l) M') = false := by
      revert hT
      cases hasT today (entryFoldE today (entryStep today o l) M') <;> simp
    obtain ⟨hTe1, hM'0⟩ := entryFoldE_hasT_false today M' _ hTf
    have hlp : l.price = 0 := by
      cases o with
      | none =>
        by_contra h0
        have hp : 0 < l.price := Nat.pos_of_ne_zero h0
        have hstep : hasT today (entryStep today none l) = true := by
          show hasT today (pricesTouch today l.price ⟨l.title, l.profile, cstr l, []⟩) = true
          simp [pricesTouch, hasT, hp]
        rw [hstep] at hTe1
        cases hTe1
      | some e => exact (entryStep_hasT_false today l e hTe1).2
    apply entryFoldE_noop
    intro l' hl'
    apply entryStep_noop
    · exact hTf
    · rcases List.mem_cons.mp hl' with heq | hm
      · rw [heq]; exact hlp
      · exact hM'0 _ hm
    · exact settled_after today o l M' l' hl'

theorem entryFold_idem (today : String) (o : Option PHEntry) (M : List Listing) :
    entryFold today (entryFold today o M) M = entryFold today o M := by
  cases M with
  | nil => rfl
  | cons l M' =>
    have h1 : entryFold today o (l :: M') =
        some (entryFoldE today (entryStep today o l) M') := by
      rw [entryFold_cons, entryFold_some_eq]
    rw [h1, entryFold_some_eq, entry_replay]

theorem phStep_keys_mem (today : String) (h : List (String × PHEntry)) (l : Listing)
    (hmem : l.id ∈ h.map Prod.fst) :
    (phStep today h l).map Prod.fst = h.map Prod.fst := by
  unfold phStep
  cases hl : pyLookup h l.id with
  | none => exact absurd hmem ((pyLookup_eq_none_iff h l.id).mp hl)
  | some e => exact modifyFirst_keys _ _ _

theorem update_keys_of_mem (today : String) (L : List Listing) (h : List (String × PHEntry))
    (hall : ∀ l ∈ L, l.id ∈ h.map Prod.fst) :
    (update_price_history today L h).map Prod.fst = h.map Prod.fst := by
  induction L generalizing h with
  | nil => rfl
  | cons l L ih =>
    show (update_price_history today L (phStep today h l)).map Prod.fst = _
    have hk := phStep_keys_mem today h l (hall l (List.mem_cons_self _ _))
    rw [ih (phStep today h l) (fun l' hl' => by
      rw [hk]; exact hall l' (List.mem_cons_of_mem _ hl')), hk]

theorem phStep_keys_nodup (today : String) (h : List (String × PHEntry)) (l : Listing)
    (hnd : (h.map Prod.fst).Nodup) : ((phStep today h l).map Prod.fst).Nodup := by
  unfold phStep
  cases hl : pyLookup h l.id with
  | none =>
    have hnm : l.id ∉ h.map Prod.fst := (pyLookup_eq_none_iff h l.id).mp hl
    rw [List.map_append]
    simp only [List.map_cons, List.map_nil]
    rw [List.nodup_append]
    refine ⟨hnd, List.nodup_singleton _, ?_⟩
    intro a ha hb
    simp only [List.mem_singleton] at hb
    subst hb
    exact hnm ha
  | some e =>
    rw [modifyFirst_keys]
    exact hnd

theorem update_keys_nodup (today : String) (L : List Listing) (h : List (String × PHEntry))
    (hnd : (h.map Prod.fst).Nodup) :
    ((update_price_history today L h).map Prod.fst).Nodup := by
  induction L generalizing h with
  | nil => exact hnd
  | cons l L ih =>
    show ((update_price_history today L (phStep today h l)).map Prod.fst).Nodup
    exact ih _ (phStep_keys_nodup today h l hnd)

theorem entryFold_ne_none (today : String) (o : Option PHEntry) (M : List Listing)
    (hM : M ≠ []) : entryFold today o M ≠ none := by
  cases M with
  | nil => exact absurd rfl hM
  | cons l M =>
    rw [entryFold_cons, entryFold_some_eq]
    simp

theorem update_mem_keys (today : String) (L : List Listing) (h : List (String × PHEntry))
    (l : Listing) (hl : l ∈ L) :
    l.id ∈ (update_price_history today L h).map Prod.fst := by
  have hne : L.filter (fun x => x.id == l.id) ≠ [] := by
    intro h0
    have hmem : l ∈ L.filter (fun x => x.id == l.id) := List.mem_filter.mpr ⟨hl, by simp⟩
    rw [h0] at hmem
    cases hmem
  have hnn := entryFold_ne_none today (pyLookup h l.id) _ hne
  cases hx : pyLookup (update_price_history today L h) l.id with
  | none =>
    rw [update_price_history_lookup] at hx
    exact absurd hx hnn
  | some v => exact pyLookup_isSome_mem _ _ hx

/-- C5.  `update_price_history` is last-write-wins and idempotent within a
day: the history of listing ids not in the scrape is unchanged; price points
for other dates are unchanged for every id; for a single listing, an
existing price point dated today has its price overwritten with the scraped
price, and otherwise a new point for today is appended exactly when the
scraped price is positive; and running the update twice with the same
listings on the same day equals running it once. -/
theorem update_price_history_spec (today : String) (listings : List Listing)
    (h0 : List (String × PHEntry)) (hnd : (h0.map Prod.fst).Nodup) :
    (∀ lid, lid ∉ listings.map Listing.id →
      pyLookup (update_price_history today listings h0) lid = pyLookup h0 lid) ∧
    (∀ lid, (pricesOf (update_price_history today listings h0) lid).filter
        (fun q => q.date != today) = (pricesOf h0 lid).filter (fun q => q.date != today)) ∧
    (∀ (l : Listing) (h : List (String × PHEntry)),
      (pricesOf h l.id).any (fun q => q.date == today) = false →
      pricesOf (update_price_history today [l] h) l.id =
        if 0 < l.price then pricesOf h l.id ++ [⟨today, l.price⟩] else pricesOf h l.id) ∧
    (∀ (l : Listing) (h : List (String × PHEntry)) (a : List PricePoint) (q : PricePoint)
        (b : List PricePoint), pricesOf h l.id = a ++ q :: b →
      (∀ r ∈ a, (r.date == today) = false) → q.date = today →
      pricesOf (update_price_history today [l] h) l.id = a ++ ⟨today, l.price⟩ :: b) ∧
    update_price_history today listings (update_price_history today listings h0) =
      update_price_history today listings h0 := by
  refine ⟨?_, ?_, ?_, ?_, ?_⟩
  · intro lid hnot
    rw [update_price_history_lookup]
    have hfil : listings.filter (fun l => l.id == lid) = [] := by
      rw [List.filter_eq_nil]
      intro l hl
      simp only [beq_iff_eq]
      intro heq
      exact hnot (heq ▸ List.mem_map_of_mem Listing.id hl)
    rw [hfil]
    rfl
  · intro lid
    rw [pricesOf_eq, pricesOf_eq, update_price_history_lookup]
    exact entryFold_filter_ne today _ _
  · intro l h hT
    rw [pricesOf_eq, update_price_history_lookup]
    have hfil : [l].filter (fun x => x.id == l.id) = [l] := by simp
    rw [hfil]
    show optPrices (some (entryStep today (pyLookup h l.id) l)) = _
    cases ho : pyLookup h l.id with
    | none =>
      rw [pricesOf_eq, ho]
      show (pricesTouch today l.price ⟨l.title, l.profile, cstr l, []⟩).prices = _
      by_cases hp : 0 < l.price
      · simp [pricesTouch, hp, optPrices]
      · simp [pricesTouch, hp, optPrices]
    | some e =>
      rw [pricesOf_eq, ho] at hT ⊢
      have hT' : e.prices.any (fun q => q.date == today) = false := hT
      show (pricesTouch today l.price (createdTouch (cstr l) e)).prices = _
      unfold pricesTouch
      simp only [createdTouch_prices]
      rw [if_neg (by simp [hT'])]
      by_cases hp : 0 < l.price
      · rw [if_pos hp]
        simp [optPrices, hp]
      · rw [if_neg hp]
        simp [optPrices, hp]
  · intro l h a q b hdec ha hq
    rw [pricesOf_eq, update_price_history_lookup]
    have hfil : [l].filter (fun x => x.id == l.id) = [l] := by simp
    rw [hfil]
    show optPrices (some (entryStep today (pyLookup h l.id) l)) = _
    cases ho : pyLookup h l.id with
    | none =>
      rw [pricesOf_eq, ho] at hdec
      simp [optPrices] at hdec
    | some e =>
      rw [pricesOf_eq, ho] at hdec
      simp only [optPrices] at hdec
      show (pricesTouch today l.price (createdTouch (cstr l) e)).prices = _
      unfold pricesTouch
      simp only [createdTouch_prices]
      have hany : e.prices.any (fun r => r.date == today) = true := by
        rw [hdec]
        apply List.any_eq_true.mpr
        exact ⟨q, by simp, by simp [hq]⟩
      rw [if_pos hany]
      show overwriteFirst today l.price e.prices = _
      rw [hdec]
      clear hdec hany
      induction a with
      | nil =>
        simp only [List.nil_append]
        unfold overwriteFirst
        rw [if_pos (by simp [hq])]
        simp [hq]
      | cons r rs ih =>
        have hr : (r.date == today) = false := ha r (List.mem_cons_self _ _)
        simp only [List.cons_append]
        unfold overwriteFirst
        rw [if_neg (by simp [hr])]
        rw [ih (fun r' hr' => ha r' (List.mem_cons_of_mem _ hr'))]
  · have hkeys1 : ∀ l ∈ listings,
        l.id ∈ (update_price_history today listings h0).map Prod.fst :=
      fun l hl => update_mem_keys today listings h0 l hl
    apply dict_ext
    · exact update_keys_of_mem today listings _ hkeys1
    · rw [update_keys_of_mem today listings _ hkeys1]
      exact update_keys_nodup today listings h0 hnd
    · intro k
      rw [update_price_history_lookup, update_price_history_lookup, entryFold_idem]

/-- Concrete price-history scenario for the C5 witness. -/
def phW : List (String × PHEntry) := [("yy", ⟨"Tytuł", "prof", "", [⟨"16 lut", 850⟩]⟩)]

def lW : Listing := ⟨"xx", "prof", "Pokój xx", 900, "u", none, none⟩

/-- Witness for C5: a listing id absent from the scrape keeps its record. -/
theorem update_price_history_spec_witness :
    ((phW.map Prod.fst).Nodup) ∧ "yy" ∉ [lW].map Listing.id ∧
    pyLookup (update_price_history "17 lut" [lW] phW) "yy" = pyLookup phW "yy" :=
  ⟨by decide, by decide,
    (update_price_history_spec "17 lut" [lW] phW (by decide)).1 "yy" (by decide)⟩

/-! ## `get_weekly_data` (email_report.py lines 35-147)

Scan timestamps are modelled as minutes (the Excel cell is parsed with
`"%Y-%m-%d %H:%M"`, minute precision); `dayOf` abstracts
`strftime("%Y-%m-%d")`, the calendar-day label of a timestamp; a week ago is
`now - 7*24*60` minutes.  An Excel row is `some (scan timestamp, profile)`,
or `none` when its date or profile cell is empty or unparsable (rows 61-69
skip those).  `profiles_state.json` is `none` when the file does not
exist. -/

/-- The per-day statistics attached from `profiles_state.json`. -/
structure WStats where
  total : Nat
  new : Nat
  deleted : Nat
  net : Int
deriving DecidableEq

/-- One per-profile-per-day record of the weekly report. -/
structure WEntry where
  dt : Nat
  date : String
  status : String
  stats : Option WStats
deriving DecidableEq

/-- One iteration of the row-collection loop (email_report.py lines 61-90):
skip rows older than a week, group by profile and calendar day, keep the
newest timestamp per day. -/
def insertRow (dayOf : Nat → String) (weekAgo : Nat)
    (pd : List (String × List (String × WEntry))) :
    Option (Nat × String) → List (String × List (String × WEntry))
  | none => pd
  | some (dt, profile) =>
    if dt < weekAgo then pd
    else
      let ds := dayOf dt
      match pyLookup pd profile with
      | none => pd ++ [(profile, [(ds, ⟨dt, ds, "OK", none⟩)])]
      | some _ => modifyFirst profile (fun inner =>
          match pyLookup inner ds with
          | none => inner ++ [(ds, ⟨dt, ds, "OK", none⟩)]
          | some _ =>
            modifyFirst ds (fun e => if e.dt < dt then { e with dt := dt } else e) inner) pd

/-- `month_map.get(..., 1)` (email_report.py lines 112-117). -/
def monthNum (s : String) : Nat :=
  if s = "sty" then 1 else if s = "lut" then 2 else if s = "mar" then 3
  else if s = "kwi" then 4 else if s = "maj" then 5 else if s = "cze" then 6
  else if s = "lip" then 7 else if s = "sie" then 8 else if s = "wrz" then 9
  else if s = "paź" then 10 else if s = "lis" then 11 else if s = "gru" then 12 else 1

def pad2 (n : Nat) : String := if n < 10 then "0" ++ toString n else toString n

def pad4 (n : Nat) : String :=
  if n < 10 then "000" ++ toString n
  else if n < 100 then "00" ++ toString n
  else if n < 1000 then "0" ++ toString n
  else toString n

/-- Normalisation `"17 lut 2026" → "2026-02-17"` (email_report.py lines
107-122); `none` models the swallowed exception. -/
def normDate (s : String) : Option String :=
  match (s.split (fun c => c.isWhitespace)).filter (fun t => t ≠ "") with
  | [d, m, y] =>
    match d.toNat?, y.toNat? with
    | some dn, some yn => some (pad4 yn ++ "-" ++ pad2 (monthNum m.toLower) ++ "-" ++ pad2 dn)
    | _, _ => none
  | _ => none

/-- `history_map[norm_date]` — later history entries with the same
normalised date overwrite earlier ones, so the lookup returns the last. -/
def histLookup (hist : List HEntry) (d : String) : Option HEntry :=
  (hist.filter (fun h => normDate h.date == some d)).getLast?

/-- Statistics merge (email_report.py lines 92-136): for profiles present in
`profiles_state.json`, attach the matching history entry's counts to each
collected day, zero-filling days without one. -/
def fillStats (state? : Option (List (String × ProfileEntry)))
    (pd : List (String × List (String × WEntry))) :
    List (String × List (String × WEntry)) :=
  match state? with
  | none => pd
  | some st => pd.map (fun pi =>
      match pyLookup st pi.1 with
      | none => pi
      | some pe => (pi.1, pi.2.map (fun de =>
          match histLookup pe.history de.1 with
          | some hh => (de.1, { de.2 with stats := some ⟨hh.total, hh.newCount, hh.goneCount,
              (hh.newCount : Int) - (hh.goneCount : Int)⟩ })
          | none => (de.1, { de.2 with stats := some ⟨0, 0, 0, 0⟩ }))))

/-- Stable insertion for `sorted(..., key=_dt, reverse=True)`. -/
def insertDesc (x : WEntry) : List WEntry → List WEntry
  | [] => [x]
  | y :: ys => if y.dt < x.dt then x :: y :: ys else y :: insertDesc x ys

def sortDesc : List WEntry → List WEntry
  | [] => []
  | x :: xs => insertDesc x (sortDesc xs)

/-- `get_weekly_data` (email_report.py lines 35-147): collect the rows of
the trailing week grouped per profile per day, merge the statistics from
`profiles_state.json`, and return each profile's records sorted from newest
to oldest scan timestamp. -/
def get_weekly_data (dayOf : Nat → String) (now : Nat)
    (rows : List (Option (Nat × String)))
    (state? : Option (List (String × ProfileEntry))) : List (String × List WEntry) :=
  let weekAgo := now - 7 * 24 * 60
  let pd := rows.foldl (insertRow dayOf weekAgo) []
  let pd2 := fillStats state? pd
  pd2.map (fun pi => (pi.1, sortDesc (pi.2.map Prod.snd)))

/-- Is an Excel row inside the trailing week (and parsable)? -/
def rowKept (weekAgo : Nat) (r : Option (Nat × String)) : Bool :=
  match r with
  | none => false
  | some (dt, _) => !(decide (dt < weekAgo))

theorem foldl_insertRow_filter (dayOf : Nat → String) (weekAgo : Nat)
    (rows : List (Option (Nat × String))) (acc : List (String × List (String × WEntry))) :
    rows.foldl (insertRow dayOf weekAgo) acc =
      (rows.filter (rowKept weekAgo)).foldl (insertRow dayOf weekAgo) acc := by
  induction rows generalizing acc with
  | nil => rfl
  | cons r rows ih =>
    rw [List.foldl_cons, List.filter_cons]
    cases hk : rowKept weekAgo r with
    | false =>
      have hnoop : insertRow dayOf weekAgo acc r = acc := by
        cases r with
        | none => rfl
        | some p =>
          obtain ⟨dt, prof⟩ := p
          have hlt : dt < weekAgo := by
            by_contra hc
            simp [rowKept, hc] at hk
          simp [insertRow, hlt]
      rw [if_neg (by simp), hnoop]
      exact ih acc
    | true =>
      rw [if_pos rfl, List.foldl_cons]
      exact ih _

/-- The invariant of the grouped collection: distinct profile keys, distinct
day keys per profile, each record dated with its day key and inside the
window. -/
def pdInv (weekAgo : Nat) (pd : List (String × List (String × WEntry))) : Prop :=
  (pd.map Prod.fst).Nodup ∧
  ∀ pi ∈ pd, ((pi.2.map Prod.fst).Nodup ∧
    ∀ de ∈ pi.2, de.2.date = de.1 ∧ weekAgo ≤ de.2.dt)

theorem modifyFirst_mem {α : Type} (k : String) (f : α → α) (m : List (String × α)) :
    ∀ x ∈ modifyFirst k f m, x ∈ m ∨ ∃ v, (k, v) ∈ m ∧ x = (k, f v) := by
  induction m with
  | nil => simp [modifyFirst]
  | cons q t ih =>
    obtain ⟨k₀, v₀⟩ := q
    intro x hx
    by_cases h0 : k₀ = k
    · subst h0
      rw [modifyFirst, if_pos rfl] at hx
      rcases List.mem_cons.mp hx with heq | hm
      · right
        exact ⟨v₀, List.mem_cons_self _ _, heq⟩
      · left
        exact List.mem_cons_of_mem _ hm
    · rw [modifyFirst, if_neg h0] at hx
      rcases List.mem_cons.mp hx with heq | hm
      · left
        rw [heq]
        exact List.mem_cons_self _ _
      · rcases ih x hm with h | ⟨v, hv, hxv⟩
        · left
          exact List.mem_cons_of_mem _ h
        · right
          exact ⟨v, List.mem_cons_of_mem _ hv, hxv⟩

theorem nodup_keys_append_fresh {α : Type} (m : List (String × α)) (k : String) (v : α)
    (hnd : (m.map Prod.fst).Nodup) (hk : k ∉ m.map Prod.fst) :
    ((m ++ [(k, v)]).map Prod.fst).Nodup := by
  rw [List.map_append]
  simp only [List.map_cons, List.map_nil]
  rw [List.nodup_append]
  refine ⟨hnd, List.nodup_singleton _, ?_⟩
  intro a ha hb
  simp only [List.mem_singleton] at hb
  subst hb
  exact hk ha

theorem insertRow_inv (dayOf : Nat → String) (weekAgo : Nat)
    (pd : List (String × List (String × WEntry))) (row : Option (Nat × String))
    (hinv : pdInv weekAgo pd) : pdInv weekAgo (insertRow dayOf weekAgo pd row) := by
  obtain ⟨hkeys, hmem⟩ := hinv
  cases row with
  | none => exact ⟨hkeys, hmem⟩
  | some p =>
    obtain ⟨dt, prof⟩ := p
    simp only [insertRow]
    by_cases hlt : dt < weekAgo
    · rw [if_pos hlt]
      exact ⟨hkeys, hmem⟩
    · rw [if_neg hlt]
      have hgood : weekAgo ≤ dt := Nat.le_of_not_lt hlt
      cases hl : pyLookup pd prof with
      | none =>
        refine ⟨nodup_keys_append_fresh pd prof _ hkeys ((pyLookup_eq_none_iff pd prof).mp hl),
          ?_⟩
        intro pi hpi
        rcases List.mem_append.mp hpi with hold | hnew
        · exact hmem pi hold
        · simp only [List.mem_singleton] at hnew
          rw [hnew]
          refine ⟨List.nodup_singleton _, ?_⟩
          intro de hde
          simp only [List.mem_singleton] at hde
          rw [hde]
          exact ⟨rfl, hgood⟩
      | some inner0 =>
        constructor
        · rw [modifyFirst_keys]
          exact hkeys
        · intro pi hpi
          rcases modifyFirst_mem prof _ pd pi hpi with hold | ⟨inner, hinner, hpi2⟩
          · exact hmem pi hold
          · rw [hpi2]
            obtain ⟨hnd0, hde0⟩ := hmem (prof, inner) hinner
            cases hli : pyLookup inner (dayOf dt) with
            | none =>
              refine ⟨nodup_keys_append_fresh inner (dayOf dt) _ hnd0
                ((pyLookup_eq_none_iff inner (dayOf dt)).mp hli), ?_⟩
              intro de hde
              rcases List.mem_append.mp hde with hold2 | hnew2
              · exact hde0 de hold2
              · simp only [List.mem_singleton] at hnew2
                rw [hnew2]
                exact ⟨rfl, hgood⟩
            | some e0 =>
              constructor
              · rw [modifyFirst_keys]
                exact hnd0
              · intro de hde
                rcases modifyFirst_mem (dayOf dt) _ inner de hde with hold2 | ⟨v, hv, hde2⟩
                · exact hde0 de hold2
                · rw [hde2]
                  obtain ⟨hvd, hvdt⟩ := hde0 (dayOf dt, v) hv
                  by_cases hcmp : v.dt < dt
                  · simp only [if_pos hcmp]
                    exact ⟨hvd, hgood⟩
                  · simp only [if_neg hcmp]
                    exact ⟨hvd, hvdt⟩

theorem foldl_insertRow_inv (dayOf : Nat → String) (weekAgo : Nat)
    (rows : List (Option (Nat × String))) (acc : List (String × List (String × WEntry)))
    (hinv : pdInv weekAgo acc) :
    pdInv weekAgo (rows.foldl (insertRow dayOf weekAgo) acc) := by
  induction rows generalizing acc with
  | nil => exact hinv
  | cons r rows ih => exact ih _ (insertRow_inv dayOf weekAgo acc r hinv)

theorem fillStats_inv (weekAgo : Nat) (state? : Option (List (String × ProfileEntry)))
    (pd : List (String × List (String × WEntry))) (hinv : pdInv weekAgo pd) :
    pdInv weekAgo (fillStats state? pd) := by
  obtain ⟨hkeys, hmem⟩ := hinv
  cases state? with
  | none => exact ⟨hkeys, hmem⟩
  | some st =>
    constructor
    · have : (fillStats (some st) pd).map Prod.fst = pd.map Prod.fst := by
        unfold fillStats
        rw [List.map_map]
        apply List.map_congr_left
        intro pi _
        cases hst : pyLookup st pi.1 <;> simp [Function.comp, hst]
      rw [this]
      exact hkeys
    · intro pi hpi
      unfold fillStats at hpi
      rcases List.mem_map.mp hpi with ⟨pi0, hpi0, hpieq⟩
      obtain ⟨hnd0, hde0⟩ := hmem pi0 hpi0
      cases hls : pyLookup st pi0.1 with
      | none =>
        rw [hls] at hpieq
        rw [← hpieq]
        exact ⟨hnd0, hde0⟩
      | some pe =>
        rw [hls] at hpieq
        rw [← hpieq]
        constructor
        · have : ((pi0.2.map (fun de =>
              match histLookup pe.history de.1 with
              | some hh => (de.1, { de.2 with stats := some ⟨hh.total, hh.newCount, hh.goneCount,
                  (hh.newCount : Int) - (hh.goneCount : Int)⟩ })
              | none => (de.1, { de.2 with stats := some ⟨0, 0, 0, 0⟩ }))).map Prod.fst) =
              pi0.2.map Prod.fst := by
            rw [List.map_map]
            apply List.map_congr_left
            intro de _
            cases hhl : histLookup pe.history de.1 <;> simp [Function.comp, hhl]
          rw [this]
          exact hnd0
        · intro de hde
          rcases List.mem_map.mp hde with ⟨de0, hde00, hdeeq⟩
          obtain ⟨hd1, hd2⟩ := hde0 de0 hde00
          rw [← hdeeq]
          cases hhl2 : histLookup pe.history de0.1 with
          | some hh =>
            simp only [hhl2]
            exact ⟨hd1, hd2⟩
          | none =>
            simp only [hhl2]
            exact ⟨hd1, hd2⟩

theorem insertDesc_perm (x : WEntry) (l : List WEntry) : (insertDesc x l).Perm (x :: l) := by
  induction l with
  | nil => exact List.Perm.refl _
  | cons y ys ih =>
    unfold insertDesc
    by_cases h : y.dt < x.dt
    · rw [if_pos h]
    · rw [if_neg h]
      exact (List.Perm.cons y ih).trans (List.Perm.swap x y ys)

theorem sortDesc_perm (l : List WEntry) : (sortDesc l).Perm l := by
  induction l with
  | nil => exact List.Perm.refl _
  | cons x xs ih =>
    exact (insertDesc_perm x (sortDesc xs)).trans (List.Perm.cons x ih)

theorem insertDesc_sorted (x : WEntry) (l : List WEntry)
    (h : l.Pairwise (fun a b => b.dt ≤ a.dt)) :
    (insertDesc x l).Pairwise (fun a b => b.dt ≤ a.dt) := by
  induction l with
  | nil => simp [insertDesc]
  | cons y ys ih =>
    obtain ⟨hy, hys⟩ := List.pairwise_cons.mp h
    unfold insertDesc
    by_cases hxy : y.dt < x.dt
    · rw [if_pos hxy]
      refine List.pairwise_cons.mpr ⟨?_, h⟩
      intro z hz
      rcases List.mem_cons.mp hz with heq | hm
      · rw [heq]
        exact Nat.le_of_lt hxy
      · exact Nat.le_trans (hy z hm) (Nat.le_of_lt hxy)
    · rw [if_neg hxy]
      refine List.pairwise_cons.mpr ⟨?_, ih hys⟩
      intro z hz
      have hz' := (insertDesc_perm x ys).mem_iff.mp hz
      rcases List.mem_cons.mp hz' with heq | hm
      · rw [heq]
        exact Nat.le_of_not_lt hxy
      · exact hy z hm

theorem sortDesc_sorted (l : List WEntry) :
    (sortDesc l).Pairwise (fun a b => b.dt ≤ a.dt) := by
  induction l with
  | nil => exact List.Pairwise.nil
  | cons x xs ih => exact insertDesc_sorted x (sortDesc xs) ih

/-- C6.  `get_weekly_data` restricts the report to the trailing week: rows
older than 7 days before `now` contribute nothing, each profile has at most
one record per calendar day, and each profile's records come sorted from
newest to oldest scan timestamp. -/
theorem get_weekly_data_spec (dayOf : Nat → String) (now : Nat)
    (rows : List (Option (Nat × String))) (state? : Option (List (String × ProfileEntry)))
    (p : String) (l : List WEntry)
    (hm : (p, l) ∈ get_weekly_data dayOf now rows state?) :
    (∀ e ∈ l, now - 7 * 24 * 60 ≤ e.dt) ∧
    (l.map WEntry.date).Nodup ∧
    l.Pairwise (fun a b => b.dt ≤ a.dt) ∧
    get_weekly_data dayOf now rows state? =
      get_weekly_data dayOf now (rows.filter (rowKept (now - 7 * 24 * 60))) state? := by
  have hinv : pdInv (now - 7 * 24 * 60)
      (fillStats state? (rows.foldl (insertRow dayOf (now - 7 * 24 * 60)) [])) :=
    fillStats_inv _ state? _ (foldl_insertRow_inv dayOf _ rows [] ⟨List.nodup_nil, by simp⟩)
  unfold get_weekly_data at hm
  rcases List.mem_map.mp hm with ⟨pi, hpi, hpieq⟩
  have hl : l = sortDesc (pi.2.map Prod.snd) := by
    have := congrArg Prod.snd hpieq
    simpa using this.symm
  obtain ⟨hnd0, hde0⟩ := hinv.2 pi hpi
  refine ⟨?_, ?_, ?_, ?_⟩
  · intro e he
    rw [hl] at he
    have he2 := (sortDesc_perm _).mem_iff.mp he
    rcases List.mem_map.mp he2 with ⟨de, hde, hdeq⟩
    rw [← hdeq]
    exact (hde0 de hde).2
  · rw [hl]
    have hperm : ((sortDesc (pi.2.map Prod.snd)).map WEntry.date).Perm
        ((pi.2.map Prod.snd).map WEntry.date) := (sortDesc_perm _).map _
    rw [hperm.nodup_iff]
    have : (pi.2.map Prod.snd).map WEntry.date = pi.2.map Prod.fst := by
      rw [List.map_map]
      apply List.map_congr_left
      intro de hde
      exact (hde0 de hde).1
    rw [this]
    exact hnd0
  · rw [hl]
    exact sortDesc_sorted _
  · simp only [get_weekly_data]
    rw [← foldl_insertRow_filter]

/-- Concrete scenario for the C6 witness: day labels are minutes divided by
1440, `now` is minute 20000, three in-window scans of profile `a` on two
days and one stale scan. -/
def dayOfW : Nat → String := fun t => toString (t / 1440)

def wRows : List (Option (Nat × String)) :=
  [some (19000, "a"), some (1, "a"), none, some (15000, "a"), some (19100, "a")]

def wOut : List WEntry := [⟨19100, "13", "OK", none⟩, ⟨15000, "10", "OK", none⟩]

/-- Witness for C6 at the concrete scenario. -/
theorem get_weekly_data_spec_witness :
    (("a", wOut) ∈ get_weekly_data dayOfW 20000 wRows none) ∧
    (∀ e ∈ wOut, 20000 - 7 * 24 * 60 ≤ e.dt) ∧
    (wOut.map WEntry.date).Nodup ∧
    wOut.Pairwise (fun a b => b.dt ≤ a.dt) :=
  ⟨by decide,
    (get_weekly_data_spec dayOfW 20000 wRows none "a" wOut (by decide)).1,
    (get_weekly_data_spec dayOfW 20000 wRows none "a" wOut (by decide)).2.1,
    (get_weekly_data_spec dayOfW 20000 wRows none "a" wOut (by decide)).2.2.1⟩

/-! ## `generate_ai_analysis` (email_report.py lines 311-372)

The HTTP layer is abstracted by an environment mapping a model name to the
outcome of its single `requests.post` attempt: a successful response with
extracted text, a 429 quota response, another non-ok status, or an exception
(network failure or unexpected JSON shape — both are swallowed by the
`except` clause).  The function performs no retries: each model is attempted
at most once, in the fixed list order. -/

inductive GeminiOutcome where
  | ok (text : String)
  | quotaExceeded
  | httpError (code : Nat)
  | exception
deriving DecidableEq

/-- The fixed fallback list (email_report.py lines 342-346). -/
def geminiModels : List String :=
  ["gemini-2.0-flash-lite", "gemini-1.5-flash-8b", "gemini-1.5-flash"]

def noKeyMessage : String := "⚠ Analiza AI niedostępna – brak klucza GEMINI_API_KEY."

def allFailedMessage : String :=
  "⚠ Analiza AI chwilowo niedostępna – wszystkie modele Gemini przekroczyły limit. Spróbuj ponownie za godzinę."

def isOk : GeminiOutcome → Bool
  | .ok _ => true
  | _ => false

/-- The `for model in models` loop, instrumented with the list of models
actually attempted; the successful text is `.strip()`-ped. -/
def tryModelsTrace (env : String → GeminiOutcome) : List String → List String × Option String
  | [] => ([], none)
  | m :: rest =>
    match env m with
    | .ok t => ([m], some t.trim)
    | _ =>
      let r := tryModelsTrace env rest
      (m :: r.1, r.2)

/-- `generate_ai_analysis`, with its attempt trace. -/
def generate_ai_analysis_trace (apiKey : String) (env : String → GeminiOutcome) :
    List String × String :=
  if apiKey = "" then ([], noKeyMessage)
  else
    let r := tryModelsTrace env geminiModels
    (r.1, r.2.getD allFailedMessage)

/-- `generate_ai_analysis` (email_report.py lines 311-372). -/
def generate_ai_analysis (apiKey : String) (env : String → GeminiOutcome) : String :=
  (generate_ai_analysis_trace apiKey env).2

theorem tryModelsTrace_trace (env : String → GeminiOutcome) (l : List String) :
    (tryModelsTrace env l).1 =
      l.takeWhile (fun m => !(isOk (env m))) ++
        (l.drop (l.takeWhile (fun m => !(isOk (env m)))).length).take 1 := by
  induction l with
  | nil => rfl
  | cons m rest ih =>
    cases he : env m with
    | ok t =>
      simp [tryModelsTrace, he, List.takeWhile_cons, isOk]
    | quotaExceeded =>
      simp [tryModelsTrace, he, List.takeWhile_cons, isOk, ih]
    | httpError c =>
      simp [tryModelsTrace, he, List.takeWhile_cons, isOk, ih]
    | exception =>
      simp [tryModelsTrace, he, List.takeWhile_cons, isOk, ih]

theorem tryModelsTrace_result (env : String → GeminiOutcome) (l : List String) :
    (tryModelsTrace env l).2 =
      l.findSome? (fun m => match env m with | .ok t => some t.trim | _ => none) := by
  induction l with
  | nil => rfl
  | cons m rest ih =>
    cases he : env m with
    | ok t => simp [tryModelsTrace, he, List.findSome?_cons]
    | quotaExceeded => simp [tryModelsTrace, he, List.findSome?_cons, ih]
    | httpError c => simp [tryModelsTrace, he, List.findSome?_cons, ih]
    | exception => simp [tryModelsTrace, he, List.findSome?_cons, ih]

theorem tryModelsTrace_isSuffix (env : String → GeminiOutcome) (l : List String) :
    ∃ t, (tryModelsTrace env l).1 ++ t = l := by
  induction l with
  | nil => exact ⟨[], rfl⟩
  | cons m rest ih =>
    cases he : env m with
    | ok t => exact ⟨rest, by simp [tryModelsTrace, he]⟩
    | quotaExceeded =>
      obtain ⟨t, ht⟩ := ih
      exact ⟨t, by simp [tryModelsTrace, he, ht]⟩
    | httpError c =>
      obtain ⟨t, ht⟩ := ih
      exact ⟨t, by simp [tryModelsTrace, he, ht]⟩
    | exception =>
      obtain ⟨t, ht⟩ := ih
      exact ⟨t, by simp [tryModelsTrace, he, ht]⟩

/-- C7.  `generate_ai_analysis` follows a linear fallback with no retry: it
returns the fixed no-key message without contacting any model when the key
is unset; otherwise the attempt trace is the failing front of the model
list plus the first succeeding model (each model at most once, in order — a
front of the fixed list), the result is the trimmed text of the first
success or the fixed unavailability message when every model fails, and the
function always returns a string (it is total). -/
theorem generate_ai_analysis_spec (apiKey : String) (env : String → GeminiOutcome) :
    (apiKey = "" → generate_ai_analysis_trace apiKey env = ([], noKeyMessage)) ∧
    (apiKey ≠ "" →
      (generate_ai_analysis_trace apiKey env).1 =
        geminiModels.takeWhile (fun m => !(isOk (env m))) ++
          (geminiModels.drop
            (geminiModels.takeWhile (fun m => !(isOk (env m)))).length).take 1 ∧
      (generate_ai_analysis_trace apiKey env).2 =
        (geminiModels.findSome?
          (fun m => match env m with | .ok t => some t.trim | _ => none)).getD
          allFailedMessage) ∧
    (∃ t, (generate_ai_analysis_trace apiKey env).1 ++ t = geminiModels) ∧
    (generate_ai_analysis_trace apiKey env).1.Nodup ∧
    generate_ai_analysis apiKey env = (generate_ai_analysis_trace apiKey env).2 := by
  have hsuffix : ∃ t, (generate_ai_analysis_trace apiKey env).1 ++ t = geminiModels := by
    unfold generate_ai_analysis_trace
    by_cases hk : apiKey = ""
    · rw [if_pos hk]
      exact ⟨geminiModels, rfl⟩
    · rw [if_neg hk]
      exact tryModelsTrace_isSuffix env geminiModels
  refine ⟨?_, ?_, hsuffix, ?_, rfl⟩
  · intro hk
    unfold generate_ai_analysis_trace
    rw [if_pos hk]
  · intro hk
    unfold generate_ai_analysis_trace
    rw [if_neg hk]
    refine ⟨tryModelsTrace_trace env geminiModels, ?_⟩
    show (tryModelsTrace env geminiModels).2.getD allFailedMessage = _
    rw [tryModelsTrace_result]
  · obtain ⟨t, ht⟩ := hsuffix
    have hsub : (generate_ai_analysis_trace apiKey env).1.Sublist geminiModels := by
      rw [← ht]
      exact List.sublist_append_left _ t
    exact (by decide : geminiModels.Nodup).sublist hsub

/-- Witness for C7: with a key set and every model failing with quota, the
trace is the whole model list and the result the unavailability message. -/
theorem generate_ai_analysis_spec_witness :
    ("k" : String) ≠ "" ∧
    (generate_ai_analysis_trace "k" (fun _ => GeminiOutcome.quotaExceeded)).1 =
      geminiModels.takeWhile
        (fun m => !(isOk ((fun _ => GeminiOutcome.quotaExceeded) m))) ++
        (geminiModels.drop
          (geminiModels.takeWhile
            (fun m => !(isOk ((fun _ => GeminiOutcome.quotaExceeded) m)))).length).take 1 ∧
    (generate_ai_analysis_trace "k" (fun _ => GeminiOutcome.quotaExceeded)).2 =
      (geminiModels.findSome?
        (fun m => match (fun _ => GeminiOutcome.quotaExceeded) m with
          | GeminiOutcome.ok t => some t.trim
          | _ => none)).getD allFailedMessage :=
  ⟨by decide,
    (generate_ai_analysis_spec "k" (fun _ => GeminiOutcome.quotaExceeded)).2.1 (by decide)⟩

end OlxMonitor
